import Mathlib

/-!
# Verification of the game-price-compare matching core

A shallow embedding of `src/scraper/matcher.py`: text normalization,
the single-card candidate filter, keyword/fuzzy catalog matching and the
per-shop price aggregation, together with theorems settling the spec claims.

Text is modelled as `List Char` (`Txt`).  Python's `unicodedata.normalize
("NFKC", ·)` is modelled character-wise (`nfkcChar`), restricted to the
mappings relevant to the program's character set: the full-width ASCII block
U+FF01–U+FF5E folds to ASCII, the ideographic space U+3000 folds to a plain
space, and every other character is fixed.  `rapidfuzz.fuzz.token_sort_ratio`
is modelled exactly over ℚ (the Python implementation computes the same
rational value in double precision): tokens are split on whitespace, sorted
lexicographically, joined by single spaces, and scored by normalized Indel
similarity `200·lcs/(len₁+len₂)`.  The LCS is computed by the standard
row dynamic program so that concrete instances evaluate in the kernel.
Logging and the report-only `matched` id-set of `match_products` have no
effect on the catalog state and are not modelled.
-/

namespace Matcher

/-- Text as scraped / processed: a list of Unicode characters. -/
abbrev Txt := List Char

/-- Model of Python's `str.isspace` / regex `\s` (Unicode whitespace). -/
def pyIsSpace (c : Char) : Bool :=
  let n := c.toNat
  (0x9 ≤ n && n ≤ 0xd) || n = 0x20 || (0x1c ≤ n && n ≤ 0x1f) || n = 0x85 ||
    n = 0xa0 || n = 0x1680 || (0x2000 ≤ n && n ≤ 0x200a) || n = 0x2028 ||
    n = 0x2029 || n = 0x202f || n = 0x205f || n = 0x3000

/-- Character-wise model of NFKC normalization (see module docstring). -/
def nfkcChar (c : Char) : Char :=
  if c.toNat = 0x3000 then ' '
  else if 0xFF01 ≤ c.toNat ∧ c.toNat ≤ 0xFF5E then Char.ofNat (c.toNat - 0xFEE0)
  else c

/-- `unicodedata.normalize("NFKC", text)` in the char-wise model. -/
def nfkc (s : Txt) : Txt := s.map nfkcChar

/-- The character class of the regex `[【】\[\]（）()「」『』\-\s]` in `normalize`. -/
def isSep (c : Char) : Bool :=
  c = '【' || c = '】' || c = '[' || c = ']' || c = '（' || c = '）' ||
    c = '(' || c = ')' || c = '「' || c = '」' || c = '『' || c = '』' ||
    c = '-' || pyIsSpace c

/-- `re.sub(r"[【】\[\]（）()「」『』\-\s]+", " ", text)`: replace every maximal
run of separator characters by a single space.  The flag records whether the
previous character was part of a separator run already replaced. -/
def collapseAux : Bool → Txt → Txt
  | _, [] => []
  | prevSep, c :: rest =>
    if isSep c then
      if prevSep then collapseAux true rest else ' ' :: collapseAux true rest
    else c :: collapseAux false rest

/-- The whole regex substitution. -/
def collapseSeps (l : Txt) : Txt := collapseAux false l

theorem dropWhile_length_le (p : α → Bool) (l : List α) :
    (l.dropWhile p).length ≤ l.length := by
  induction l with
  | nil => simp [List.dropWhile]
  | cons x xs ih => by_cases h : p x <;> simp [List.dropWhile_cons, h, Nat.le_succ_of_le ih]

/-- Python `str.strip()`: drop leading and trailing whitespace. -/
def pyStrip (l : Txt) : Txt :=
  ((l.dropWhile pyIsSpace).reverse.dropWhile pyIsSpace).reverse

/-- Remove every (non-overlapping, left-to-right) occurrence of the nonempty
pattern `p0 :: ps`, as Python `str.replace(pat, "")` does.  The `Nat` argument
counts characters of a just-matched occurrence still to be dropped, keeping
the recursion structural (and hence kernel-computable). -/
def removeAllAux (p0 : Char) (ps : Txt) : Txt → Nat → Txt
  | [], _ => []
  | _ :: rest, sk + 1 => removeAllAux p0 ps rest sk
  | c :: rest, 0 =>
    if (p0 :: ps).isPrefixOf (c :: rest) then removeAllAux p0 ps rest ps.length
    else c :: removeAllAux p0 ps rest 0

/-- Remove every occurrence of the nonempty pattern `p0 :: ps`. -/
def removeAll (p0 : Char) (ps : Txt) (l : Txt) : Txt := removeAllAux p0 ps l 0

/-- Python `s.replace(pat, "")` (with `pat = ""` it is the identity). -/
def pyRemove (pat : Txt) (s : Txt) : Txt :=
  match pat with
  | [] => s
  | p :: ps => removeAll p ps s

/-- Python `pat in hay`: substring test. -/
def containsSub (pat : Txt) : Txt → Bool
  | [] => pat.isEmpty
  | c :: rest => pat.isPrefixOf (c :: rest) || containsSub pat rest

/-- The noise words stripped by `normalize`, in source order. -/
def NOISE_WORDS : List Txt :=
  ["BOX".data, "box".data, "Box".data, "シュリンク付".data, "シュリンク".data,
   "未開封".data, "新品".data, "日本語版".data, "ポケモンカードゲーム".data,
   "ポケカ".data, "1BOX".data, "1box".data, "1Box".data]

/-- `normalize(text)`: NFKC, separator collapsing, noise-word removal, strip. -/
def normalize (s : Txt) : Txt :=
  pyStrip (NOISE_WORDS.foldl (fun t w => pyRemove w t) (collapseSeps (nfkc s)))

theorem normalize_def (s : Txt) : normalize s =
    pyStrip (NOISE_WORDS.foldl (fun t w => pyRemove w t) (collapseSeps (nfkc s))) := rfl

/- `whnf` of an application of `normalize` to a stuck term is exponential in
the nested noise-word removals, so keep the elaborator from unfolding it; the
kernel still computes it, and proofs rewrite with `normalize_def`. -/
attribute [irreducible] normalize

/-- Fuzzy-match acceptance threshold (`MATCH_THRESHOLD = 75`). -/
def MATCH_THRESHOLD : ℚ := 75

/-- Price sanity ceiling in yen (`MAX_BOX_PRICE = 60000`). -/
def MAX_BOX_PRICE : Int := 60000

/-- Substrings indicating a sealed BOX product (`BOX_INDICATORS`). -/
def BOX_INDICATORS : List Txt :=
  ["BOX".data, "box".data, "Box".data, "ボックス".data, "パック".data,
   "シュリンク".data, "未開封".data, "セット".data, "デッキ".data,
   "コレクション".data]

/-- Substrings indicating a single card (`SINGLE_CARD_INDICATORS`). -/
def SINGLE_CARD_INDICATORS : List Txt :=
  ["SAR".data, " SR ".data, " UR ".data, " AR ".data, " RR ".data, " HR ".data,
   " CSR ".data, " ACE ".data, "VSTAR".data, "VMAX".data, "プロモ".data,
   "プロモカード".data, "バラ".data, "1枚".data, "シングル".data, "カートン".data]

/-- A master product entry (`MasterProduct` dataclass).  `prices` models the
`shop_id -> price` dict as an association list written once per key. -/
structure MasterProduct where
  category : Txt
  name : Txt
  retail_price : Int
  keywords : List Txt
  prices : List (Txt × Int)
deriving DecidableEq

/-- Helper mirroring the dataclass constructor calls in the source. -/
def MP (category name : String) (retail : Int) (keywords : List String) :
    MasterProduct :=
  ⟨category.data, name.data, retail, keywords.map String.data, []⟩

/-- The master product list, transcribed from the source. -/
def MASTER_PRODUCTS : List MasterProduct := [
  MP "mega" "MEGA 拡張パック「インフェルノX」" 5400 ["インフェルノ", "インフェルノX", "INFERNO"],
  MP "mega" "MEGA 拡張パック「メガブレイブ」" 5400 ["メガブレイブ", "MEGABRAVE"],
  MP "mega" "MEGA ハイクラスパック「MEGAドリームex」" 5500 ["MEGAドリーム", "メガドリーム", "MEGA DREAM"],
  MP "mega" "MEGA 拡張パック「メガシンフォニア」" 5400 ["メガシンフォニア", "MEGASYMPHONIA"],
  MP "mega" "MEGA 拡張パック「ムニキスゼロ」" 5400 ["ムニキスゼロ", "ムニキス", "MUNIX"],
  MP "sv" "SV 強化拡張パック「151」" 5400 ["151", "ポケモンカード151"],
  MP "sv" "SV 拡張パック「超電ブレイカー」" 5400 ["超電ブレイカー", "超電"],
  MP "sv" "SV 拡張パックDX「ブラックボルト」" 5800 ["ブラックボルト", "BLACKVOLT", "拡張パックDXブラック"],
  MP "sv" "SV 拡張パックDX「ホワイトフレア」" 5800 ["ホワイトフレア", "WHITEFLARE", "拡張パックDXホワイト"],
  MP "sv" "SV 拡張パック「ロケット団の栄光」" 5400 ["ロケット団の栄光", "ロケット団", "ロケット"],
  MP "sv" "SV 拡張パック「ブラックボルト」" 5400 ["ブラックボルト", "BLACK BOLT"],
  MP "sv" "SV 強化拡張パック「熱風のアリーナ」" 5400 ["熱風のアリーナ", "熱風", "アリーナ"],
  MP "sv" "SV ハイクラスパック テラスタルフェスex" 5500 ["テラスタルフェス", "テラスタル"],
  MP "sv" "SV 強化拡張パック「黒炎の支配者」" 5400 ["黒炎の支配者", "黒炎"],
  MP "sv" "SV 拡張パック「ホワイトフレア」" 5400 ["ホワイトフレア", "WHITE FLARE"],
  MP "sv" "SV 強化拡張パック「トリプレットビート」" 5400 ["トリプレットビート", "トリプレット"],
  MP "sv" "SV 強化拡張パック「楽園ドラゴーナ」" 5400 ["楽園ドラゴーナ", "ドラゴーナ"],
  MP "sv" "SV 拡張パック「クリムゾンヘイズ」" 5400 ["クリムゾンヘイズ", "クリムゾン"],
  MP "sv" "SV ハイクラスパック「シャイニートレジャーex」" 5500 ["シャイニートレジャー", "シャイニー"],
  MP "sv" "SV 拡張パック「クレイバースト」" 5400 ["クレイバースト", "クレイ"],
  MP "sv" "SV 強化拡張パック「レイジングサーフ」" 5400 ["レイジングサーフ", "レイジング"],
  MP "sv" "SV 拡張パック「スカーレットex」" 5400 ["スカーレットex", "スカーレット"],
  MP "sv" "SV 拡張パック「変幻の仮面」" 5400 ["変幻の仮面", "変幻"],
  MP "sv" "SV 拡張パック「ワイルドフォース」" 5400 ["ワイルドフォース", "ワイルド"],
  MP "sv" "SV 強化拡張パック「スノーハザード」" 5400 ["スノーハザード", "スノー"],
  MP "sv" "SV 拡張パック「古代の咆哮」" 5400 ["古代の咆哮", "古代"],
  MP "sv" "SV 強化拡張パック「ステラミラクル」" 5400 ["ステラミラクル", "ステラ"],
  MP "sv" "SV 強化拡張パック「ナイトワンダラー」" 5400 ["ナイトワンダラー", "ナイト"],
  MP "sv" "SV 拡張パック「サイバージャッジ」" 5400 ["サイバージャッジ", "サイバー"],
  MP "sv" "SV 拡張パック「未来の一閃」" 5400 ["未来の一閃", "未来"],
  MP "sv" "SV 拡張パック「バイオレットex」" 5400 ["バイオレットex", "バイオレット"],
  MP "sv" "SV 拡張パック「バトルパートナーズ」" 5400 ["バトルパートナーズ", "パートナーズ"]]

/-- `_keyword_match`: some normalized keyword is a nonempty substring of the
normalized scraped name. -/
def keyword_match (scraped_name : Txt) (p : MasterProduct) : Bool :=
  p.keywords.any fun kw =>
    let nk := normalize kw
    (!nk.isEmpty) && containsSub nk (normalize scraped_name)

/-- `_is_single_card`: single-card indicators apply only when no BOX indicator
is present. -/
def is_single_card (name : Txt) : Bool :=
  if BOX_INDICATORS.any (fun b => containsSub b name) then false
  else SINGLE_CARD_INDICATORS.any fun b => containsSub b name

/-- `_disambiguate_dx` returns `"dx"` or `"normal"` (never `None`); modelled as
a Boolean.  The last two source disjuncts are subsumed by the first two but are
kept for fidelity. -/
def is_dx_item (name : Txt) : Bool :=
  let norm := (normalize name).map Char.toLower
  containsSub "dx".data norm || containsSub "DX".data name ||
    containsSub "拡張パックdx".data norm || containsSub "拡張パックDX".data name

/-- `"DX" in product.name` in `match_products`. -/
def product_is_dx (p : MasterProduct) : Bool := containsSub "DX".data p.name

/-- The keywords shared by a DX/base entry pair. -/
def DISAMB_KEYWORDS : List Txt := ["ブラックボルト".data, "ホワイトフレア".data]

/-- The guard `product.keywords and any(kw in [...] for kw in product.keywords)`. -/
def needs_disambiguation (p : MasterProduct) : Bool :=
  (!p.keywords.isEmpty) && p.keywords.any fun kw => DISAMB_KEYWORDS.contains kw

/-! ## Fuzzy scoring: `rapidfuzz.fuzz.token_sort_ratio` -/

/-- Python `str.split()` worker: `acc` holds the reversed current word. -/
def splitWsAux : Txt → Txt → List Txt
  | [], acc => if acc.isEmpty then [] else [acc.reverse]
  | c :: rest, acc =>
    if pyIsSpace c then
      if acc.isEmpty then splitWsAux rest [] else acc.reverse :: splitWsAux rest []
    else splitWsAux rest (c :: acc)

/-- Python `str.split()`: split on whitespace runs, dropping empty pieces. -/
def splitWs (l : Txt) : List Txt := splitWsAux l []

/-- Lexicographic comparison of texts by code point, as Python compares `str`. -/
def lexLe : Txt → Txt → Bool
  | [], _ => true
  | _ :: _, [] => false
  | a :: as, b :: bs => if a < b then true else if b < a then false else lexLe as bs

/-- Insert into a `lexLe`-sorted list. -/
def insertSorted (x : Txt) : List Txt → List Txt
  | [] => [x]
  | y :: ys => if lexLe x y then x :: y :: ys else y :: insertSorted x ys

/-- `sorted(...)` on a list of strings.  Since `lexLe` is a total order that is
antisymmetric on strings, this agrees with Python's stable sort. -/
def sortStrs : List Txt → List Txt
  | [] => []
  | x :: xs => insertSorted x (sortStrs xs)

/-- `" ".join(ts)`: join tokens with single spaces. -/
def joinSp : List Txt → Txt
  | [] => []
  | [t] => t
  | t :: ts => t ++ ' ' :: joinSp ts

/-- `" ".join(sorted(s.split()))`: the token-sort preprocessing of
`fuzz.token_sort_ratio`. -/
def tokenSortJoin (t : Txt) : Txt := joinSp (sortStrs (splitWs t))

/-- One row step of the longest-common-subsequence dynamic program: given the
previous row tail and the value just computed to the left, produce the next
row tail. -/
def lcsRowStep (c : Char) : Txt → List Nat → Nat → List Nat
  | [], _, _ => []
  | b :: bs, p0 :: prest, left =>
    let p1 := prest.headD 0
    let v := if c = b then p0 + 1 else max left p1
    v :: lcsRowStep c bs prest v
  | _ :: _, [], _ => []

/-- Length of a longest common subsequence, by the standard row DP (kernel
computable).  `Indel distance = len₁ + len₂ - 2·lcs`. -/
def lcsList (a b : Txt) : Nat :=
  (a.foldl (fun row c => 0 :: lcsRowStep c b row 0) (List.replicate (b.length + 1) 0)).getLastD 0

/-- `fuzz.ratio`: normalized Indel similarity scaled to 0–100, exactly. -/
def ratioQ (a b : Txt) : ℚ :=
  if a.length + b.length = 0 then 100
  else mkRat (200 * lcsList a b) (a.length + b.length)

/-- `fuzz.token_sort_ratio`. -/
def token_sort_ratio (a b : Txt) : ℚ := ratioQ (tokenSortJoin a) (tokenSortJoin b)

/-! ## The matching loop of `match_products` -/

/-- The candidate score one catalog entry contributes for a scraped name:
`some 100` on a keyword match that survives DX disambiguation, `none` when the
keyword branch discards the entry (`continue`), and the fuzzy
`token_sort_ratio` of the normalized names otherwise. -/
def candScore (name : Txt) (p : MasterProduct) : Option ℚ :=
  if keyword_match name p then
    if needs_disambiguation p && (product_is_dx p != is_dx_item name) then none
    else some 100
  else some (token_sort_ratio (normalize name) (normalize p.name))

/-- `best_score` of an accumulator (`0` while `best_product is None`). -/
def accScore : Option (Nat × ℚ) → ℚ
  | none => 0
  | some x => x.2

/-- Fold the accumulator with one candidate score at index `i`: strict
improvement required, as in `score > best_score`. -/
def bestUpd (i : Nat) (acc : Option (Nat × ℚ)) : Option ℚ → Option (Nat × ℚ)
  | none => acc
  | some s => if accScore acc < s then some (i, s) else acc

/-- The inner `for product in products` loop. -/
def bestAux (name : Txt) : Nat → Option (Nat × ℚ) → List MasterProduct → Option (Nat × ℚ)
  | _, acc, [] => acc
  | i, acc, p :: ps => bestAux name (i + 1) (bestUpd i acc (candScore name p)) ps

/-- Best-scoring entry (index into the catalog and its score), if any. -/
def bestMatch (name : Txt) (products : List MasterProduct) : Option (Nat × ℚ) :=
  bestAux name 0 none products

/-- Replace the element at index `i` (identity when out of range). -/
def updateAt : Nat → (α → α) → List α → List α
  | _, _, [] => []
  | 0, f, x :: xs => f x :: xs
  | n + 1, f, x :: xs => x :: updateAt n f xs

/-- `if shop_id not in best_product.prices: best_product.prices[shop_id] = price`:
first write per shop wins. -/
def recordPrice (shop : Txt) (price : Int) (p : MasterProduct) : MasterProduct :=
  if (List.lookup shop p.prices).isSome then p
  else { p with prices := p.prices ++ [(shop, price)] }

/-- The post-filter body of the loop: score the name against the catalog and
record the price on the winning entry if the score reaches the threshold. -/
def applyBest (name : Txt) (price : Int) (shop : Txt)
    (products : List MasterProduct) : List MasterProduct :=
  match bestMatch name products with
  | some (i, s) =>
    if MATCH_THRESHOLD ≤ s then updateAt i (recordPrice shop price) products
    else products
  | none => products

/-- One iteration of `for name, price in scraped_items`, including the three
eligibility gates in source order. -/
def step (shop : Txt) (products : List MasterProduct) (item : Txt × Int) :
    List MasterProduct :=
  if item.2 ≤ 0 then products
  else if is_single_card item.1 then products
  else if MAX_BOX_PRICE < item.2 then products
  else applyBest item.1 item.2 shop products

/-- `match_products(scraped_items, shop_id, products)`: the returned list is
the mutated catalog (the Python function mutates `products` in place). -/
def match_products (scraped_items : List (Txt × Int)) (shop_id : Txt)
    (products : List MasterProduct := MASTER_PRODUCTS) : List MasterProduct :=
  scraped_items.foldl (step shop_id) products

/-- An observation passes the three eligibility gates of `match_products`. -/
def eligible (name : Txt) (price : Int) : Prop :=
  0 < price ∧ is_single_card name = false ∧ price ≤ MAX_BOX_PRICE

instance (name : Txt) (price : Int) : Decidable (eligible name price) := by
  unfold eligible; infer_instance

/-! ## Generic list lemmas -/

theorem updateAt_length (i : Nat) (f : α → α) (l : List α) :
    (updateAt i f l).length = l.length := by
  induction l generalizing i with
  | nil => cases i <;> rfl
  | cons x xs ih => cases i with
    | zero => rfl
    | succ n => simpa [updateAt] using ih n

theorem updateAt_get (i : Nat) (f : α → α) (l : List α) (k : Nat)
    (hk : k < l.length) (hk' : k < (updateAt i f l).length) :
    (updateAt i f l).get ⟨k, hk'⟩ = if k = i then f (l.get ⟨k, hk⟩) else l.get ⟨k, hk⟩ := by
  induction l generalizing i k with
  | nil => exact absurd hk (by simp)
  | cons x xs ih =>
    cases i with
    | zero => cases k with
      | zero => rfl
      | succ m => simp [updateAt]
    | succ n => cases k with
      | zero => simp [updateAt]
      | succ m => simpa [updateAt] using ih n m (by simpa using hk) (by simpa [updateAt_length] using hk')

theorem lookup_append_left {α β : Type _} [BEq α] (k : α) (l m : List (α × β)) (v : β)
    (h : List.lookup k l = some v) : List.lookup k (l ++ m) = some v := by
  induction l with
  | nil => simp [List.lookup] at h
  | cons p l ih =>
    rw [List.cons_append, List.lookup_cons] at *
    cases hkp : (k == p.1) <;> simp [hkp] at h ⊢ <;> simp_all

theorem lookup_append_other {α β : Type _} [BEq α] [LawfulBEq α] (k k' : α)
    (hne : k ≠ k') (l : List (α × β)) (v : β) :
    List.lookup k (l ++ [(k', v)]) = List.lookup k l := by
  induction l with
  | nil => simp [List.lookup_cons, beq_false_of_ne hne]
  | cons p l ih =>
    rw [List.cons_append, List.lookup_cons, List.lookup_cons]
    cases hkp : (k == p.1) <;> simp [hkp, ih]

theorem lookup_none_keys {α β : Type _} [BEq α] [LawfulBEq α] (k : α) (l : List (α × β))
    (h : List.lookup k l = none) : k ∉ l.map Prod.fst := by
  induction l with
  | nil => simp
  | cons p l ih =>
    rw [List.lookup_cons] at h
    cases hkp : (k == p.1) with
    | true => rw [hkp] at h; exact absurd h (by simp)
    | false =>
      rw [hkp] at h
      simp only [cond_false] at h
      simp only [List.map_cons, List.mem_cons, not_or]
      refine ⟨fun hh => ?_, ih h⟩
      rw [hh] at hkp
      simp at hkp

/-! ## The LCS dynamic program: exact bounds -/

/-- The invariant of one LCS table cell `v` at row `aPref` and column `j`:
twice the cell never exceeds `|aPref| + j`, with equality exactly on the
diagonal of equal prefixes. -/
def CellInv (aPref b : Txt) (j : Nat) (v : Nat) : Prop :=
  2 * v ≤ aPref.length + j ∧ (2 * v = aPref.length + j → aPref = b.take j)

theorem lcsRowStep_length (c : Char) :
    ∀ (bs : Txt) (prev : List Nat) (left : Nat), prev.length = bs.length + 1 →
      (lcsRowStep c bs prev left).length = bs.length := by
  intro bs
  induction bs with
  | nil => intro prev left _; rfl
  | cons bj bs ih =>
    intro prev left hlen
    match prev, hlen with
    | p0 :: prest, hlen =>
      simp only [lcsRowStep, List.length_cons]
      rw [ih prest _ (by simpa using hlen)]

theorem lcsRowStep_inv (c : Char) (b aPref : Txt) :
    ∀ (bs : Txt) (jd : Nat) (prev : List Nat) (left : Nat),
      b.drop jd = bs →
      (hlen : prev.length = bs.length + 1) →
      (∀ k (hk : k < prev.length), CellInv aPref b (jd + k) (prev.get ⟨k, hk⟩)) →
      CellInv (aPref ++ [c]) b jd left →
      ∀ k (hk : k < (lcsRowStep c bs prev left).length),
        CellInv (aPref ++ [c]) b (jd + 1 + k) ((lcsRowStep c bs prev left).get ⟨k, hk⟩) := by
  intro bs
  induction bs with
  | nil => intro jd prev left _ _ _ _ k hk; exact absurd hk (by simp [lcsRowStep])
  | cons bj bs ih =>
    intro jd prev left hdrop hlen hcells hleft k hk
    match prev, hlen with
    | p0 :: prest, hlen =>
      have hprest : prest.length = bs.length + 1 := by simpa using hlen
      have hp0 : CellInv aPref b jd p0 := by simpa using hcells 0 (by simp)
      have hp1 : CellInv aPref b (jd + 1) (prest.headD 0) := by
        have h1 : (1 : Nat) < (p0 :: prest).length := by simp [hprest]
        have := hcells 1 h1
        have hh : prest.headD 0 = (p0 :: prest).get ⟨1, h1⟩ := by
          cases prest with
          | nil => simp at hprest
          | cons q qs => rfl
        rwa [hh]
      have hjdlt : jd < b.length := by
        have := congrArg List.length hdrop
        simp [List.length_drop] at this
        omega
      have hbj : b[jd]? = some bj := by
        have : (b.drop jd)[0]? = some bj := by rw [hdrop]; simp
        rwa [List.getElem?_drop, Nat.add_zero] at this
      have htake : b.take (jd + 1) = b.take jd ++ [bj] := by
        rw [List.take_succ, hbj]; rfl
      have hvInv : CellInv (aPref ++ [c]) b (jd + 1)
          (if c = bj then p0 + 1 else max left (prest.headD 0)) := by
        by_cases hc : c = bj
        · simp only [if_pos hc]
          constructor
          · have := hp0.1; simp only [List.length_append, List.length_singleton]; omega
          · intro heq
            have h2 : 2 * p0 = aPref.length + jd := by
              simp only [List.length_append, List.length_singleton] at heq; omega
            have := hp0.2 h2
            rw [htake, this, hc]
        · simp only [if_neg hc]
          have hl := hleft.1
          have hr := hp1.1
          constructor
          · simp only [List.length_append, List.length_singleton] at hl ⊢
            have : max left (prest.headD 0) = left ∨ max left (prest.headD 0) = prest.headD 0 :=
              max_choice _ _
            rcases this with h | h <;> rw [h] <;> omega
          · intro heq
            exfalso
            simp only [List.length_append, List.length_singleton] at hl heq
            have : max left (prest.headD 0) = left ∨ max left (prest.headD 0) = prest.headD 0 :=
              max_choice _ _
            rcases this with h | h <;> rw [h] at heq <;> omega
      have hdrop' : b.drop (jd + 1) = bs := by
        have : b.drop (jd + 1) = (b.drop jd).drop 1 := by
          rw [List.drop_drop]
        rw [this, hdrop]; rfl
      have hcells' : ∀ k (hk : k < prest.length),
          CellInv aPref b (jd + 1 + k) (prest.get ⟨k, hk⟩) := by
        intro k hk
        have hk1 : k + 1 < (p0 :: prest).length := by simpa using Nat.succ_lt_succ hk
        have := hcells (k + 1) hk1
        have hg : (p0 :: prest).get ⟨k + 1, hk1⟩ = prest.get ⟨k, hk⟩ := rfl
        rw [hg] at this
        have : CellInv aPref b (jd + (k + 1)) (prest.get ⟨k, hk⟩) := this
        simpa [Nat.add_assoc, Nat.add_comm 1 k] using this
      cases k with
      | zero => simpa [lcsRowStep] using hvInv
      | succ m =>
        have hrec := ih (jd + 1) prest _ hdrop' hprest hcells' hvInv m
          (by simpa [lcsRowStep, lcsRowStep_length c bs prest _ hprest] using hk)
        have hg : (lcsRowStep c (bj :: bs) (p0 :: prest) left).get ⟨m + 1, hk⟩ =
            (lcsRowStep c bs prest (if c = bj then p0 + 1 else max left (prest.headD 0))).get
              ⟨m, by simpa [lcsRowStep, lcsRowStep_length c bs prest _ hprest] using hk⟩ := by
          simp [lcsRowStep]
        rw [hg]
        have : jd + 1 + (m + 1) = jd + 1 + 1 + m := by omega
        rw [this]
        exact hrec

theorem getLastD_eq_get {α : Type _} (l : List α) (d : α) (n : Nat)
    (h : l.length = n + 1) : l.getLastD d = l.get ⟨n, by omega⟩ := by
  rw [List.getLastD_eq_getLast?, List.getLast?_eq_getElem?]
  have hn : l.length - 1 = n := by omega
  rw [hn, List.getElem?_eq_getElem (by omega)]
  simp [List.get_eq_getElem]

theorem lcs_fold_inv (b : Txt) :
    ∀ (a aPref : Txt) (row : List Nat),
      row.length = b.length + 1 →
      (∀ k (hk : k < row.length), CellInv aPref b k (row.get ⟨k, hk⟩)) →
      (a.foldl (fun r c => 0 :: lcsRowStep c b r 0) row).length = b.length + 1 ∧
        ∀ k (hk : k < (a.foldl (fun r c => 0 :: lcsRowStep c b r 0) row).length),
          CellInv (aPref ++ a) b k
            ((a.foldl (fun r c => 0 :: lcsRowStep c b r 0) row).get ⟨k, hk⟩) := by
  intro a
  induction a with
  | nil => intro aPref row hlen hcells; simpa using ⟨hlen, hcells⟩
  | cons c a ih =>
    intro aPref row hlen hcells
    have hzero : CellInv (aPref ++ [c]) b 0 0 := by
      constructor
      · omega
      · intro h; simp at h
    have hrow' : (0 :: lcsRowStep c b row 0).length = b.length + 1 := by
      simp [lcsRowStep_length c b row 0 hlen]
    have hcells' : ∀ k (hk : k < (0 :: lcsRowStep c b row 0).length),
        CellInv (aPref ++ [c]) b k ((0 :: lcsRowStep c b row 0).get ⟨k, hk⟩) := by
      intro k hk
      cases k with
      | zero => exact hzero
      | succ m =>
        have hm : m < (lcsRowStep c b row 0).length := by simpa using hk
        have := lcsRowStep_inv c b aPref b 0 row 0 rfl hlen
          (by intro k hk; simpa using hcells k hk) hzero m hm
        simpa [Nat.add_comm 1 m] using this
    have := ih (aPref ++ [c]) (0 :: lcsRowStep c b row 0) hrow' hcells'
    simpa [List.foldl_cons, List.append_assoc] using this

theorem lcsList_cellInv (a b : Txt) : CellInv a b b.length (lcsList a b) := by
  have hinit : ∀ k (hk : k < (List.replicate (b.length + 1) (0 : Nat)).length),
      CellInv ([] : Txt) b k ((List.replicate (b.length + 1) (0 : Nat)).get ⟨k, hk⟩) := by
    intro k hk
    constructor
    · simp
    · intro h
      simp only [List.get_eq_getElem, List.getElem_replicate, List.length_nil] at h
      have : k = 0 := by omega
      simp [this]
  have hfold := lcs_fold_inv b a [] (List.replicate (b.length + 1) 0) (by simp) hinit
  have hlen := hfold.1
  have hlt : b.length < (a.foldl (fun r c => 0 :: lcsRowStep c b r 0)
      (List.replicate (b.length + 1) 0)).length := by omega
  have hcell := hfold.2 b.length hlt
  have hfin : lcsList a b = (a.foldl (fun r c => 0 :: lcsRowStep c b r 0)
      (List.replicate (b.length + 1) 0)).get ⟨b.length, hlt⟩ := by
    unfold lcsList
    exact getLastD_eq_get _ 0 b.length hlen
  rw [hfin]
  simpa using hcell

theorem two_mul_lcsList_le (a b : Txt) : 2 * lcsList a b ≤ a.length + b.length :=
  (lcsList_cellInv a b).1

theorem lcsList_eq_of_two_mul (a b : Txt)
    (h : 2 * lcsList a b = a.length + b.length) : a = b := by
  have := (lcsList_cellInv a b).2 h
  simpa [List.take_length] using this

/-! ## Ratio bounds -/

theorem ratioQ_le_100 (a b : Txt) : ratioQ a b ≤ 100 := by
  unfold ratioQ
  by_cases h : a.length + b.length = 0
  · simp [h]
  · rw [if_neg h, Rat.mkRat_eq_div]
    have hd : (0 : ℚ) < ((a.length + b.length : Nat) : ℚ) := by
      have : 0 < a.length + b.length := Nat.pos_of_ne_zero h
      exact_mod_cast this
    rw [div_le_iff₀ hd]
    have hle := two_mul_lcsList_le a b
    have : ((200 * lcsList a b : Int) : ℚ) ≤ 100 * ((a.length + b.length : Nat) : ℚ) := by
      push_cast
      have : (200 : ℚ) * lcsList a b = 100 * (2 * lcsList a b) := by ring
      rw [this]
      have : ((2 * lcsList a b : Nat) : ℚ) ≤ ((a.length + b.length : Nat) : ℚ) := by
        exact_mod_cast hle
      push_cast at this
      nlinarith
    exact_mod_cast this

theorem ratioQ_eq_100_imp (a b : Txt) (h : ratioQ a b = 100) : a = b := by
  unfold ratioQ at h
  by_cases h0 : a.length + b.length = 0
  · have ha : a = [] := List.length_eq_zero.mp (by omega)
    have hb : b = [] := List.length_eq_zero.mp (by omega)
    rw [ha, hb]
  · rw [if_neg h0, Rat.mkRat_eq_div] at h
    have hd : (0 : ℚ) < ((a.length + b.length : Nat) : ℚ) := by
      have : 0 < a.length + b.length := Nat.pos_of_ne_zero h0
      exact_mod_cast this
    rw [div_eq_iff (ne_of_gt hd)] at h
    have h2 : 2 * lcsList a b = a.length + b.length := by
      have : ((200 * lcsList a b : Int) : ℚ) = 100 * ((a.length + b.length : Nat) : ℚ) := h
      have hq : (200 : ℚ) * lcsList a b = 100 * ((a.length : ℚ) + b.length) := by
        push_cast at this; linarith
      have : (2 : ℚ) * lcsList a b = (a.length : ℚ) + b.length := by linarith
      exact_mod_cast this
    exact lcsList_eq_of_two_mul a b h2

theorem token_sort_ratio_le_100 (a b : Txt) : token_sort_ratio a b ≤ 100 :=
  ratioQ_le_100 _ _

theorem token_sort_ratio_eq_100_imp (a b : Txt) (h : token_sort_ratio a b = 100) :
    tokenSortJoin a = tokenSortJoin b :=
  ratioQ_eq_100_imp _ _ h

theorem candScore_le_100 (name : Txt) (p : MasterProduct) (s : ℚ)
    (h : candScore name p = some s) : s ≤ 100 := by
  unfold candScore at h
  by_cases hkw : keyword_match name p
  · rw [if_pos hkw] at h
    by_cases hd : needs_disambiguation p && (product_is_dx p != is_dx_item name)
    · rw [if_pos hd] at h; exact absurd h (by simp)
    · rw [if_neg hd] at h
      have hs : (100 : ℚ) = s := Option.some.inj h
      rw [← hs]
  · rw [if_neg hkw] at h
    have hs := Option.some.inj h
    rw [← hs]
    exact token_sort_ratio_le_100 _ _

/-! ## Lemmas about the best-candidate fold -/

/-- The candidate score of the catalog entry at index `j` (`none` out of
range or when the entry is discarded by disambiguation). -/
def candScoreAt (name : Txt) (products : List MasterProduct) (j : Nat) : Option ℚ :=
  (products[j]?).bind (candScore name)

/-- The entry's candidate is absent or scores strictly below 100. -/
def scoreLt100 : Option ℚ → Prop
  | none => True
  | some s => s < 100

instance : (o : Option ℚ) → Decidable (scoreLt100 o)
  | none => .isTrue trivial
  | some s => inferInstanceAs (Decidable (s < 100))

theorem bestAux_append (name : Txt) (xs ys : List MasterProduct) :
    ∀ (i : Nat) (acc : Option (Nat × ℚ)),
      bestAux name i acc (xs ++ ys) = bestAux name (i + xs.length) (bestAux name i acc xs) ys := by
  induction xs with
  | nil => intro i acc; simp [bestAux]
  | cons p ps ih =>
    intro i acc
    simp only [List.cons_append, bestAux, List.length_cons]
    have happ : ps.append ys = ps ++ ys := rfl
    rw [happ, ih]
    congr 1
    omega

theorem bestUpd_score_le (i : Nat) (acc : Option (Nat × ℚ)) (o : Option ℚ) :
    accScore acc ≤ accScore (bestUpd i acc o) := by
  cases o with
  | none => exact le_refl _
  | some s =>
    simp only [bestUpd]
    by_cases hlt : accScore acc < s
    · rw [if_pos hlt]; exact le_of_lt hlt
    · rw [if_neg hlt]

theorem bestAux_score_mono (name : Txt) (ps : List MasterProduct) :
    ∀ (i : Nat) (acc : Option (Nat × ℚ)),
      accScore acc ≤ accScore (bestAux name i acc ps) := by
  induction ps with
  | nil => intro i acc; exact le_refl _
  | cons p ps ih =>
    intro i acc
    simp only [bestAux]
    exact le_trans (bestUpd_score_le i acc _) (ih _ _)

theorem bestAux_lock (name : Txt) (ps : List MasterProduct) :
    ∀ (i j : Nat), bestAux name i (some (j, 100)) ps = some (j, 100) := by
  induction ps with
  | nil => intro i j; rfl
  | cons p ps ih =>
    intro i j
    simp only [bestAux]
    have hupd : bestUpd i (some (j, 100)) (candScore name p) = some (j, 100) := by
      cases hc : candScore name p with
      | none => rfl
      | some s =>
        have hle : s ≤ 100 := candScore_le_100 name p s hc
        simp only [bestUpd]
        rw [if_neg (by simp only [accScore]; exact not_lt.mpr hle)]
    rw [hupd]
    exact ih _ j

theorem bestAux_lt_100 (name : Txt) (ps : List MasterProduct) :
    ∀ (i : Nat) (acc : Option (Nat × ℚ)),
      (∀ p ∈ ps, ∀ s, candScore name p = some s → s < 100) →
      accScore acc < 100 →
      accScore (bestAux name i acc ps) < 100 := by
  induction ps with
  | nil => intro i acc _ hacc; exact hacc
  | cons p ps ih =>
    intro i acc hps hacc
    simp only [bestAux]
    have hupd : accScore (bestUpd i acc (candScore name p)) < 100 := by
      cases hc : candScore name p with
      | none => exact hacc
      | some s =>
        have hs : s < 100 := hps p (List.mem_cons_self _ _) s hc
        simp only [bestUpd]
        by_cases hlt : accScore acc < s
        · rw [if_pos hlt]; simpa [accScore] using hs
        · rw [if_neg hlt]; exact hacc
    exact ih _ _ (fun q hq => hps q (List.mem_cons_of_mem _ hq)) hupd

theorem bestAux_from (name : Txt) (ps : List MasterProduct) :
    ∀ (i : Nat) (acc : Option (Nat × ℚ)) (j : Nat) (s : ℚ),
      bestAux name i acc ps = some (j, s) →
      acc = some (j, s) ∨
        ∃ k, ∃ hk : k < ps.length, j = i + k ∧ candScore name (ps.get ⟨k, hk⟩) = some s := by
  induction ps with
  | nil => intro i acc j s h; exact Or.inl h
  | cons p ps ih =>
    intro i acc j s h
    simp only [bestAux] at h
    rcases ih _ _ j s h with hl | ⟨k, hk, hj, hcs⟩
    · cases hc : candScore name p with
      | none =>
        rw [hc] at hl
        exact Or.inl hl
      | some s0 =>
        rw [hc] at hl
        simp only [bestUpd] at hl
        by_cases hlt : accScore acc < s0
        · rw [if_pos hlt] at hl
          have h1 : i = j ∧ s0 = s := by
            have := Option.some.inj hl
            exact ⟨congrArg Prod.fst this, congrArg Prod.snd this⟩
          refine Or.inr ⟨0, by simp, by omega, ?_⟩
          simp only [List.get]
          rw [hc, h1.2]
        · rw [if_neg hlt] at hl
          exact Or.inl hl
    · exact Or.inr ⟨k + 1, by simpa using Nat.succ_lt_succ hk, by omega, hcs⟩

theorem bestAux_ge_elem (name : Txt) (ps : List MasterProduct) :
    ∀ (i : Nat) (acc : Option (Nat × ℚ)) (k : Nat) (hk : k < ps.length) (s : ℚ),
      candScore name (ps.get ⟨k, hk⟩) = some s →
      s ≤ accScore (bestAux name i acc ps) := by
  induction ps with
  | nil => intro i acc k hk; exact absurd hk (by simp)
  | cons p ps ih =>
    intro i acc k hk s hcs
    cases k with
    | zero =>
      simp only [List.get] at hcs
      simp only [bestAux, hcs, bestUpd]
      by_cases hlt : accScore acc < s
      · rw [if_pos hlt]
        calc s = accScore (some (i, s)) := rfl
          _ ≤ _ := bestAux_score_mono name ps _ _
      · rw [if_neg hlt]
        calc s ≤ accScore acc := not_lt.mp hlt
          _ ≤ _ := bestAux_score_mono name ps _ _
    | succ m =>
      have hm : m < ps.length := by simpa using hk
      simp only [bestAux]
      exact ih _ _ m hm s hcs

/-- If the entry at index `i` contributes a surviving keyword score of 100 and
every earlier entry scores below 100 (or is discarded), the loop selects
exactly index `i` with score 100. -/
theorem bestMatch_of_100 (name : Txt) (products : List MasterProduct) (i : Nat)
    (hi : i < products.length)
    (hcand : candScore name (products.get ⟨i, hi⟩) = some 100)
    (hbefore : ∀ j, j < i → scoreLt100 (candScoreAt name products j)) :
    bestMatch name products = some (i, 100) := by
  have hsplit : products = products.take i ++ products.drop i :=
    (List.take_append_drop i products).symm
  have hdrop : products.drop i = products.get ⟨i, hi⟩ :: products.drop (i + 1) := by
    rw [List.get_eq_getElem]
    exact List.drop_eq_getElem_cons hi
  have hlt : ∀ p ∈ products.take i, ∀ s, candScore name p = some s → s < 100 := by
    intro p hp s hcs
    rw [List.mem_iff_get] at hp
    rcases hp with ⟨⟨k, hk⟩, hpk⟩
    have hki : k < i := by
      have := hk
      simp only [List.length_take] at this
      omega
    have hkl : k < products.length := lt_of_lt_of_le hki (le_of_lt hi)
    have hb := hbefore k hki
    unfold candScoreAt at hb
    rw [List.getElem?_eq_getElem hkl] at hb
    simp only [Option.some_bind] at hb
    have hp' : products[k] = p := by
      rw [← hpk]
      simp only [List.get_eq_getElem]
      exact List.getElem_take' products hkl hki
    rw [hp', hcs] at hb
    exact hb
  unfold bestMatch
  conv_lhs => rw [hsplit]
  rw [bestAux_append]
  have hlen : (products.take i).length = i := by
    simp only [List.length_take]; omega
  have hacc : accScore (bestAux name 0 none (products.take i)) < 100 :=
    bestAux_lt_100 name (products.take i) 0 none hlt (by norm_num [accScore])
  rw [hdrop]
  simp only [bestAux, hcand, bestUpd]
  rw [if_pos (by simpa [accScore] using hacc)]
  rw [hlen]
  rw [Nat.zero_add]
  exact bestAux_lock name (products.drop (i + 1)) _ _

/-! ## Unfolding lemmas for the aggregation loop -/

theorem match_products_nil (shop : Txt) (products : List MasterProduct) :
    match_products [] shop products = products := rfl

theorem match_products_cons (item : Txt × Int) (rest : List (Txt × Int)) (shop : Txt)
    (products : List MasterProduct) :
    match_products (item :: rest) shop products =
      match_products rest shop (step shop products item) := rfl

theorem step_price_nonpos (shop : Txt) (products : List MasterProduct) (name : Txt)
    (price : Int) (h : price ≤ 0) : step shop products (name, price) = products := by
  unfold step
  rw [if_pos h]

theorem step_single_card (shop : Txt) (products : List MasterProduct) (name : Txt)
    (price : Int) (h : is_single_card name = true) :
    step shop products (name, price) = products := by
  unfold step
  by_cases hp : price ≤ 0
  · rw [if_pos hp]
  · rw [if_neg hp, if_pos h]

theorem step_price_high (shop : Txt) (products : List MasterProduct) (name : Txt)
    (price : Int) (h : MAX_BOX_PRICE < price) :
    step shop products (name, price) = products := by
  unfold step
  by_cases hp : price ≤ 0
  · rw [if_pos hp]
  · rw [if_neg hp]
    by_cases hs : is_single_card name
    · rw [if_pos hs]
    · rw [if_neg hs, if_pos h]

theorem step_eligible (shop : Txt) (products : List MasterProduct) (name : Txt)
    (price : Int) (h : eligible name price) :
    step shop products (name, price) = applyBest name price shop products := by
  obtain ⟨h1, h2, h3⟩ := h
  unfold step
  rw [if_neg (by omega), if_neg (by simp [h2]), if_neg (by omega)]

theorem applyBest_none (name : Txt) (price : Int) (shop : Txt)
    (products : List MasterProduct) (h : bestMatch name products = none) :
    applyBest name price shop products = products := by
  unfold applyBest
  rw [h]

theorem applyBest_below (name : Txt) (price : Int) (shop : Txt)
    (products : List MasterProduct) (i : Nat) (s : ℚ)
    (h : bestMatch name products = some (i, s)) (hs : s < MATCH_THRESHOLD) :
    applyBest name price shop products = products := by
  unfold applyBest
  rw [h]
  exact if_neg (not_le.mpr hs)

theorem applyBest_hit (name : Txt) (price : Int) (shop : Txt)
    (products : List MasterProduct) (i : Nat) (s : ℚ)
    (h : bestMatch name products = some (i, s)) (hs : MATCH_THRESHOLD ≤ s) :
    applyBest name price shop products = updateAt i (recordPrice shop price) products := by
  unfold applyBest
  rw [h]
  exact if_pos hs

/-! ## Frame properties of a run -/

theorem recordPrice_category (shop : Txt) (price : Int) (p : MasterProduct) :
    (recordPrice shop price p).category = p.category := by
  unfold recordPrice; split <;> rfl

theorem recordPrice_name (shop : Txt) (price : Int) (p : MasterProduct) :
    (recordPrice shop price p).name = p.name := by
  unfold recordPrice; split <;> rfl

theorem recordPrice_retail (shop : Txt) (price : Int) (p : MasterProduct) :
    (recordPrice shop price p).retail_price = p.retail_price := by
  unfold recordPrice; split <;> rfl

theorem recordPrice_keywords (shop : Txt) (price : Int) (p : MasterProduct) :
    (recordPrice shop price p).keywords = p.keywords := by
  unfold recordPrice; split <;> rfl

theorem recordPrice_lookup_other (shop : Txt) (price : Int) (p : MasterProduct)
    (key : Txt) (hne : key ≠ shop) :
    List.lookup key (recordPrice shop price p).prices = List.lookup key p.prices := by
  unfold recordPrice
  split
  · rfl
  · exact lookup_append_other key shop hne p.prices price

theorem recordPrice_lookup_mono (shop : Txt) (price : Int) (p : MasterProduct)
    (key : Txt) (v : Int) (h : List.lookup key p.prices = some v) :
    List.lookup key (recordPrice shop price p).prices = some v := by
  unfold recordPrice
  split
  · exact h
  · exact lookup_append_left key p.prices _ v h

theorem lookup_append_self {α β : Type _} [BEq α] [LawfulBEq α] (k : α)
    (l : List (α × β)) (v : β) (h : List.lookup k l = none) :
    List.lookup k (l ++ [(k, v)]) = some v := by
  induction l with
  | nil => simp [List.lookup_cons]
  | cons q l ih =>
    obtain ⟨q1, q2⟩ := q
    rw [List.lookup_cons] at h
    rw [List.cons_append, List.lookup_cons]
    cases hq : (k == q1) with
    | true => rw [hq] at h; exact absurd h (by simp)
    | false =>
      rw [hq] at h
      simp only [cond_false] at h ⊢
      exact ih h

theorem recordPrice_lookup_fresh (shop : Txt) (price : Int) (p : MasterProduct)
    (h : List.lookup shop p.prices = none) :
    List.lookup shop (recordPrice shop price p).prices = some price := by
  unfold recordPrice
  rw [if_neg (by simp [h])]
  exact lookup_append_self shop p.prices price h

/-- Everything `match_products` is allowed to change: only the `prices` maps,
only by adding the key `shop`, never losing or overwriting an existing entry. -/
def FramePreserved (shop : Txt) (l l' : List MasterProduct) : Prop :=
  l'.length = l.length ∧
  ∀ k (hk : k < l.length) (hk' : k < l'.length),
    (l'.get ⟨k, hk'⟩).category = (l.get ⟨k, hk⟩).category ∧
    (l'.get ⟨k, hk'⟩).name = (l.get ⟨k, hk⟩).name ∧
    (l'.get ⟨k, hk'⟩).retail_price = (l.get ⟨k, hk⟩).retail_price ∧
    (l'.get ⟨k, hk'⟩).keywords = (l.get ⟨k, hk⟩).keywords ∧
    (∀ key, key ≠ shop →
      List.lookup key (l'.get ⟨k, hk'⟩).prices = List.lookup key (l.get ⟨k, hk⟩).prices) ∧
    (∀ key v, List.lookup key (l.get ⟨k, hk⟩).prices = some v →
      List.lookup key (l'.get ⟨k, hk'⟩).prices = some v)

theorem FramePreserved.refl (shop : Txt) (l : List MasterProduct) :
    FramePreserved shop l l := by
  refine ⟨rfl, ?_⟩
  intro k hk hk'
  exact ⟨rfl, rfl, rfl, rfl, fun _ _ => rfl, fun _ _ h => h⟩

theorem FramePreserved.trans (shop : Txt) (l l' l'' : List MasterProduct)
    (h1 : FramePreserved shop l l') (h2 : FramePreserved shop l' l'') :
    FramePreserved shop l l'' := by
  have e1 := h1.1
  have e2 := h2.1
  refine ⟨by omega, ?_⟩
  intro k hk hk''
  have hk' : k < l'.length := by omega
  obtain ⟨c1, n1, r1, w1, o1, m1⟩ := h1.2 k hk hk'
  obtain ⟨c2, n2, r2, w2, o2, m2⟩ := h2.2 k hk' hk''
  exact ⟨c2.trans c1, n2.trans n1, r2.trans r1, w2.trans w1,
    fun key hkey => (o2 key hkey).trans (o1 key hkey),
    fun key v hv => m2 key v (m1 key v hv)⟩

theorem updateAt_recordPrice_frame (shop : Txt) (price : Int) (i : Nat)
    (l : List MasterProduct) :
    FramePreserved shop l (updateAt i (recordPrice shop price) l) := by
  refine ⟨updateAt_length i _ l, ?_⟩
  intro k hk hk'
  rw [updateAt_get i _ l k hk hk']
  by_cases hki : k = i
  · rw [if_pos hki]
    exact ⟨recordPrice_category _ _ _, recordPrice_name _ _ _, recordPrice_retail _ _ _,
      recordPrice_keywords _ _ _, fun key hkey => recordPrice_lookup_other _ _ _ key hkey,
      fun key v hv => recordPrice_lookup_mono _ _ _ key v hv⟩
  · rw [if_neg hki]
    exact ⟨rfl, rfl, rfl, rfl, fun _ _ => rfl, fun _ _ h => h⟩

theorem step_frame (shop : Txt) (products : List MasterProduct) (item : Txt × Int) :
    FramePreserved shop products (step shop products item) := by
  unfold step
  split
  · exact FramePreserved.refl shop products
  · split
    · exact FramePreserved.refl shop products
    · split
      · exact FramePreserved.refl shop products
      · unfold applyBest
        split
        · split
          · exact updateAt_recordPrice_frame shop item.2 _ products
          · exact FramePreserved.refl shop products
        · exact FramePreserved.refl shop products

theorem match_products_frame (items : List (Txt × Int)) (shop : Txt)
    (products : List MasterProduct) :
    FramePreserved shop products (match_products items shop products) := by
  induction items generalizing products with
  | nil => exact FramePreserved.refl shop products
  | cons item rest ih =>
    rw [match_products_cons]
    exact FramePreserved.trans shop _ _ _ (step_frame shop products item) (ih _)

/-! ## Claim theorems -/

/-- C2 counterexample: `normalize` is not idempotent.  Removing the noise word
`BOX` from `"a BOX b"` leaves two adjacent spaces, which a second
normalization collapses. -/
theorem C2_counterexample :
    normalize (normalize "a BOX b".data) ≠ normalize "a BOX b".data := by
  with_unfolding_all decide

/-- C5: sealed-over-single precedence.  A name containing any sealed (BOX)
indicator is never classified as a single card; a name containing a
single-card indicator and no sealed indicator is classified as a single card
and the observation is skipped by `match_products` before scoring, mutating
nothing. -/
theorem C5_sealed_over_single :
    (∀ name : Txt, (∃ b ∈ BOX_INDICATORS, containsSub b name = true) →
      is_single_card name = false) ∧
    (∀ name : Txt, (∃ s ∈ SINGLE_CARD_INDICATORS, containsSub s name = true) →
      (∀ b ∈ BOX_INDICATORS, containsSub b name = false) →
      is_single_card name = true ∧
      ∀ (price : Int) (rest : List (Txt × Int)) (shop : Txt) (products : List MasterProduct),
        match_products ((name, price) :: rest) shop products =
          match_products rest shop products) := by
  constructor
  · intro name hbox
    unfold is_single_card
    rw [if_pos (List.any_eq_true.mpr (by
      rcases hbox with ⟨b, hb, hc⟩
      exact ⟨b, hb, hc⟩))]
  · intro name hsingle hnobox
    have hsc : is_single_card name = true := by
      unfold is_single_card
      rw [if_neg (by
        rw [List.any_eq_true]
        rintro ⟨b, hb, hc⟩
        rw [hnobox b hb] at hc
        exact absurd hc (by simp))]
      rw [List.any_eq_true]
      rcases hsingle with ⟨s, hs, hc⟩
      exact ⟨s, hs, hc⟩
    refine ⟨hsc, ?_⟩
    intro price rest shop products
    rw [match_products_cons, step_single_card shop products name price hsc]

/-- C5 witness: `"SR デッキ"` carries the sealed indicator `デッキ` and is not
rejected; `"カード SR 美品"` carries only the single-card indicator `" SR "`
and is skipped without mutating the catalog. -/
theorem C5_witness :
    is_single_card "SR デッキ".data = false ∧
    is_single_card "カード SR 美品".data = true ∧
    match_products [("カード SR 美品".data, 30000)] "shopA".data MASTER_PRODUCTS =
      MASTER_PRODUCTS := by
  refine ⟨C5_sealed_over_single.1 _ ⟨"デッキ".data, by decide, by decide⟩, ?_, ?_⟩
  · exact (C5_sealed_over_single.2 "カード SR 美品".data
      ⟨" SR ".data, by decide, by decide⟩ (by decide)).1
  · have h := (C5_sealed_over_single.2 "カード SR 美品".data
      ⟨" SR ".data, by decide, by decide⟩ (by decide)).2 30000 [] "shopA".data MASTER_PRODUCTS
    exact h

/-- C7: price-ceiling boundary.  An otherwise-eligible observation priced at
exactly 60000 passes all gates and reaches scoring (`applyBest`); at 60001 it
is skipped and the catalog is unchanged. -/
theorem C7_price_ceiling (name : Txt) (shop : Txt) (products : List MasterProduct)
    (h : is_single_card name = false) :
    step shop products (name, 60000) = applyBest name 60000 shop products ∧
    match_products [(name, 60000)] shop products = applyBest name 60000 shop products ∧
    step shop products (name, 60001) = products ∧
    match_products [(name, 60001)] shop products = products := by
  have h1 : step shop products (name, 60000) = applyBest name 60000 shop products :=
    step_eligible shop products name 60000
      ⟨by norm_num, h, by norm_num [MAX_BOX_PRICE]⟩
  have h2 : step shop products (name, 60001) = products :=
    step_price_high shop products name 60001 (by norm_num [MAX_BOX_PRICE])
  exact ⟨h1, by rw [match_products_cons, h1]; rfl, h2, by rw [match_products_cons, h2]; rfl⟩

/-- C7 witness at the concrete eligible name `"テスト"`. -/
theorem C7_witness :
    is_single_card "テスト".data = false ∧
    (step "shopA".data MASTER_PRODUCTS ("テスト".data, 60000) =
      applyBest "テスト".data 60000 "shopA".data MASTER_PRODUCTS ∧
    match_products [("テスト".data, 60000)] "shopA".data MASTER_PRODUCTS =
      applyBest "テスト".data 60000 "shopA".data MASTER_PRODUCTS ∧
    step "shopA".data MASTER_PRODUCTS ("テスト".data, 60001) = MASTER_PRODUCTS ∧
    match_products [("テスト".data, 60001)] "shopA".data MASTER_PRODUCTS =
      MASTER_PRODUCTS) :=
  ⟨by decide, C7_price_ceiling "テスト".data "shopA".data MASTER_PRODUCTS (by decide)⟩

/-- C10: the rarity codes SR/UR/AR/RR/HR/CSR/ACE appear in
`SINGLE_CARD_INDICATORS` only wrapped in ASCII spaces while SAR matches
anywhere, so a name ending in `SR` with no surrounding spaces and no sealed
indicator is not classified as a single card and proceeds to scoring. -/
theorem C10_rarity_spacing :
    " SR ".data ∈ SINGLE_CARD_INDICATORS ∧
    "SAR".data ∈ SINGLE_CARD_INDICATORS ∧
    "SR".data ∉ SINGLE_CARD_INDICATORS ∧
    containsSub "SR".data "ポケカSR".data = true ∧
    is_single_card "ポケカSR".data = false ∧
    is_single_card "カード SR 美品".data = true ∧
    is_single_card "ポケカSAR".data = true ∧
    step "shopA".data MASTER_PRODUCTS ("ポケカSR".data, 1000) =
      applyBest "ポケカSR".data 1000 "shopA".data MASTER_PRODUCTS := by
  refine ⟨by decide, by decide, by decide, by decide, by decide, by decide, by decide, ?_⟩
  exact step_eligible _ _ _ _ ⟨by norm_num, by decide, by norm_num [MAX_BOX_PRICE]⟩

/-- C8: the core is total — `match_products` is a function returning a catalog
of the same length for every input, and each kind of ineligible or unmatched
observation degrades to a skip that mutates nothing. -/
theorem C8_never_fails (items : List (Txt × Int)) (shop : Txt)
    (products : List MasterProduct) :
    (∃ out, match_products items shop products = out ∧ out.length = products.length) ∧
    (∀ (name : Txt) (price : Int) (rest : List (Txt × Int)), price ≤ 0 →
      match_products ((name, price) :: rest) shop products = match_products rest shop products) ∧
    (∀ (name : Txt) (price : Int) (rest : List (Txt × Int)), is_single_card name = true →
      match_products ((name, price) :: rest) shop products = match_products rest shop products) ∧
    (∀ (name : Txt) (price : Int) (rest : List (Txt × Int)), MAX_BOX_PRICE < price →
      match_products ((name, price) :: rest) shop products = match_products rest shop products) ∧
    (∀ (name : Txt) (price : Int) (rest : List (Txt × Int)), eligible name price →
      accScore (bestMatch name products) < MATCH_THRESHOLD →
      match_products ((name, price) :: rest) shop products = match_products rest shop products) := by
  refine ⟨⟨_, rfl, (match_products_frame items shop products).1⟩, ?_, ?_, ?_, ?_⟩
  · intro name price rest h
    rw [match_products_cons, step_price_nonpos shop products name price h]
  · intro name price rest h
    rw [match_products_cons, step_single_card shop products name price h]
  · intro name price rest h
    rw [match_products_cons, step_price_high shop products name price h]
  · intro name price rest helig hbelow
    rw [match_products_cons, step_eligible shop products name price helig]
    cases hb : bestMatch name products with
    | none => rw [applyBest_none name price shop products hb]
    | some pair =>
      obtain ⟨i, s⟩ := pair
      rw [hb] at hbelow
      rw [applyBest_below name price shop products i s hb (by simpa [accScore] using hbelow)]

/-- C8 witness: a malformed observation (price −5) is skipped. -/
theorem C8_witness :
    (-5 : Int) ≤ 0 ∧
    match_products [("ノイズ".data, -5)] "shopA".data MASTER_PRODUCTS =
      match_products [] "shopA".data MASTER_PRODUCTS :=
  ⟨by norm_num,
    (C8_never_fails [] "shopA".data MASTER_PRODUCTS).2.1 "ノイズ".data (-5) [] (by norm_num)⟩

/-- C4: threshold boundary for a fuzzy-only candidate.  When no catalog entry
keyword-matches the eligible name, a best score of at least 75 records the
price on the winning entry (first write per shop), and a best score below 75
leaves the catalog untouched. -/
theorem C4_threshold (name : Txt) (price : Int) (shop : Txt)
    (products : List MasterProduct)
    (helig : eligible name price)
    (hfuzzy : ∀ p ∈ products, keyword_match name p = false) :
    (MATCH_THRESHOLD ≤ accScore (bestMatch name products) →
      ∃ i, bestMatch name products = some (i, accScore (bestMatch name products)) ∧
        match_products [(name, price)] shop products =
          updateAt i (recordPrice shop price) products) ∧
    (accScore (bestMatch name products) < MATCH_THRESHOLD →
      match_products [(name, price)] shop products = products) := by
  constructor
  · intro hge
    cases hb : bestMatch name products with
    | none =>
      rw [hb] at hge
      exact absurd hge (by norm_num [accScore, MATCH_THRESHOLD])
    | some pair =>
      obtain ⟨i, s⟩ := pair
      refine ⟨i, by rfl, ?_⟩
      rw [match_products_cons, step_eligible shop products name price helig]
      rw [match_products_nil]
      rw [hb] at hge
      exact applyBest_hit name price shop products i s hb (by simpa [accScore] using hge)
  · intro hlt
    cases hb : bestMatch name products with
    | none =>
      rw [match_products_cons, step_eligible shop products name price helig,
        applyBest_none name price shop products hb, match_products_nil]
    | some pair =>
      obtain ⟨i, s⟩ := pair
      rw [hb] at hlt
      rw [match_products_cons, step_eligible shop products name price helig,
        applyBest_below name price shop products i s hb (by simpa [accScore] using hlt),
        match_products_nil]

/-- C4 witness: against the one-entry catalog `"abcd"` (no keywords), the name
`"abce"` scores exactly 75 and is recorded, while `"azzz"` scores 25 and is
not. -/
theorem C4_witness :
    eligible "abce".data 1000 ∧
    (∀ p ∈ [MP "sv" "abcd" 0 []], keyword_match "abce".data p = false) ∧
    accScore (bestMatch "abce".data [MP "sv" "abcd" 0 []]) = 75 ∧
    (∃ i, bestMatch "abce".data [MP "sv" "abcd" 0 []] =
        some (i, accScore (bestMatch "abce".data [MP "sv" "abcd" 0 []])) ∧
      match_products [("abce".data, 1000)] "shopA".data [MP "sv" "abcd" 0 []] =
        updateAt i (recordPrice "shopA".data 1000) [MP "sv" "abcd" 0 []]) ∧
    accScore (bestMatch "azzz".data [MP "sv" "abcd" 0 []]) = 25 ∧
    match_products [("azzz".data, 1000)] "shopA".data [MP "sv" "abcd" 0 []] =
      [MP "sv" "abcd" 0 []] := by
  refine ⟨by decide, by with_unfolding_all decide, by with_unfolding_all decide, ?_,
    by with_unfolding_all decide, ?_⟩
  · exact (C4_threshold "abce".data 1000 "shopA".data [MP "sv" "abcd" 0 []]
      (by decide) (by with_unfolding_all decide)).1 (by with_unfolding_all decide)
  · exact (C4_threshold "azzz".data 1000 "shopA".data [MP "sv" "abcd" 0 []]
      (by decide) (by with_unfolding_all decide)).2 (by with_unfolding_all decide)

/-! ## Substring test vs. `List.IsInfix` -/

theorem containsSub_iff_sub (pat : Txt) : ∀ hay : Txt, containsSub pat hay = true ↔ pat <:+: hay := by
  intro hay
  induction hay with
  | nil =>
    simp only [containsSub, List.isEmpty_iff, List.infix_nil]
  | cons c rest ih =>
    simp only [containsSub, Bool.or_eq_true, List.isPrefixOf_iff_prefix, ih,
      List.infix_cons_iff]

theorem containsSub_false_of_infix (pat y z : Txt) (hyz : y <:+: z)
    (h : containsSub pat z = false) : containsSub pat y = false := by
  cases hc : containsSub pat y with
  | false => rfl
  | true =>
    have : pat <:+: z := ((containsSub_iff_sub pat y).mp hc).trans hyz
    rw [(containsSub_iff_sub pat z).mpr this] at h
    exact absurd h (by simp)

/-! ## NFKC model: idempotence -/

theorem nfkcChar_fixed_ascii : ∀ m, m < 0x7F → 0x21 ≤ m →
    nfkcChar (Char.ofNat m) = Char.ofNat m := by decide

theorem nfkcChar_idem (c : Char) : nfkcChar (nfkcChar c) = nfkcChar c := by
  by_cases h0 : c.toNat = 0x3000
  · have h : nfkcChar c = ' ' := by unfold nfkcChar; rw [if_pos h0]
    rw [h]
    decide
  · by_cases hfw : 0xFF01 ≤ c.toNat ∧ c.toNat ≤ 0xFF5E
    · have h : nfkcChar c = Char.ofNat (c.toNat - 0xFEE0) := by
        unfold nfkcChar; rw [if_neg h0, if_pos hfw]
      rw [h]
      exact nfkcChar_fixed_ascii (c.toNat - 0xFEE0) (by omega) (by omega)
    · have h : nfkcChar c = c := by unfold nfkcChar; rw [if_neg h0, if_neg hfw]
      rw [h]
      exact h

theorem map_id_of_fixed {α : Type _} (f : α → α) (l : List α)
    (h : ∀ c ∈ l, f c = c) : l.map f = l := by
  induction l with
  | nil => rfl
  | cons c rest ih =>
    simp only [List.map_cons, h c (List.mem_cons_self _ _),
      ih (fun d hd => h d (List.mem_cons_of_mem _ hd))]

/-! ## Fixed points of the separator collapse -/

theorem collapseAux_mem : ∀ (b : Bool) (l : Txt) (c : Char), c ∈ collapseAux b l →
    c = ' ' ∨ (c ∈ l ∧ isSep c = false) := by
  intro b l
  induction l generalizing b with
  | nil => intro c hc; exact absurd hc (by simp [collapseAux])
  | cons d rest ih =>
    intro c hc
    unfold collapseAux at hc
    by_cases hd : isSep d
    · rw [if_pos hd] at hc
      by_cases hb : b
      · rw [if_pos hb] at hc
        rcases ih true c hc with h | ⟨h1, h2⟩
        · exact Or.inl h
        · exact Or.inr ⟨List.mem_cons_of_mem _ h1, h2⟩
      · rw [if_neg hb] at hc
        rcases List.mem_cons.mp hc with h | h
        · exact Or.inl h
        · rcases ih true c h with h | ⟨h1, h2⟩
          · exact Or.inl h
          · exact Or.inr ⟨List.mem_cons_of_mem _ h1, h2⟩
    · rw [if_neg hd] at hc
      rcases List.mem_cons.mp hc with h | h
      · exact Or.inr ⟨by rw [h]; exact List.mem_cons_self _ _, by rw [h]; simpa using hd⟩
      · rcases ih false c h with h | ⟨h1, h2⟩
        · exact Or.inl h
        · exact Or.inr ⟨List.mem_cons_of_mem _ h1, h2⟩

/-- No two adjacent characters of the list are both separators. -/
def NoSepRun (l : Txt) : Prop :=
  l.Chain' fun a b => ¬(isSep a = true ∧ isSep b = true)

theorem collapseAux_noSepRun : ∀ l : Txt,
    NoSepRun (collapseAux false l) ∧ NoSepRun (collapseAux true l) ∧
      ∀ c, (collapseAux true l).head? = some c → isSep c = false := by
  intro l
  induction l with
  | nil => exact ⟨List.chain'_nil, List.chain'_nil, by intro c hc; simp [collapseAux] at hc⟩
  | cons d rest ih =>
    obtain ⟨hf, ht, hh⟩ := ih
    by_cases hd : isSep d
    · refine ⟨?_, ?_, ?_⟩
      · show NoSepRun (collapseAux false (d :: rest))
        unfold collapseAux
        rw [if_pos hd, if_neg (by simp)]
        rw [NoSepRun, List.chain'_cons']
        refine ⟨?_, ht⟩
        intro y hy
        rw [hh y hy]
        simp
      · show NoSepRun (collapseAux true (d :: rest))
        unfold collapseAux
        rw [if_pos hd, if_pos rfl]
        exact ht
      · intro c hc
        unfold collapseAux at hc
        rw [if_pos hd, if_pos rfl] at hc
        exact hh c hc
    · have hstep : ∀ b, collapseAux b (d :: rest) = d :: collapseAux false rest := by
        intro b
        rw [show collapseAux b (d :: rest) =
          if isSep d then (if b then collapseAux true rest else ' ' :: collapseAux true rest)
          else d :: collapseAux false rest from rfl, if_neg hd]
      refine ⟨?_, ?_, ?_⟩
      · rw [NoSepRun, hstep false, List.chain'_cons']
        exact ⟨fun y _ => by simp [hd], hf⟩
      · rw [NoSepRun, hstep true, List.chain'_cons']
        exact ⟨fun y _ => by simp [hd], hf⟩
      · intro c hc
        rw [hstep true] at hc
        simp only [List.head?_cons, Option.some.injEq] at hc
        rw [← hc]
        simpa using hd

/-- Lists whose separators are all isolated single spaces are fixed by the
collapse. -/
theorem collapse_id_of_tame : ∀ l : Txt,
    (∀ c ∈ l, isSep c = true → c = ' ') → NoSepRun l →
    collapseAux false l = l ∧
      ((∀ c, l.head? = some c → isSep c = false) → collapseAux true l = l) := by
  intro l
  induction l with
  | nil => exact fun _ _ => ⟨rfl, fun _ => rfl⟩
  | cons d rest ih =>
    intro hsp hrun
    have hrun' : NoSepRun rest := (List.chain'_cons'.mp hrun).2
    have hsp' : ∀ c ∈ rest, isSep c = true → c = ' ' :=
      fun c hc => hsp c (List.mem_cons_of_mem _ hc)
    obtain ⟨ihf, iht⟩ := ih hsp' hrun'
    by_cases hd : isSep d
    · have hds : d = ' ' := hsp d (List.mem_cons_self _ _) hd
      have hhead : ∀ c, rest.head? = some c → isSep c = false := by
        intro c hc
        have := (List.chain'_cons'.mp hrun).1 c hc
        cases hsep : isSep c with
        | false => rfl
        | true => exact absurd ⟨hd, hsep⟩ this
      constructor
      · unfold collapseAux
        rw [if_pos hd, if_neg (by simp)]
        rw [iht hhead, hds]
      · intro hnone
        have := hnone d (by simp)
        rw [this] at hd
        exact absurd hd (by simp)
    · constructor
      · unfold collapseAux
        rw [if_neg hd, ihf]
      · intro _
        unfold collapseAux
        rw [if_neg hd, ihf]

/-! ## Strip lemmas -/

theorem pyStrip_eq_rdropWhile (l : Txt) :
    pyStrip l = (l.dropWhile pyIsSpace).rdropWhile pyIsSpace := rfl

theorem infix_pyStrip (l : Txt) : pyStrip l <:+: l := by
  rw [pyStrip_eq_rdropWhile]
  exact ((List.rdropWhile_prefix _ _).isInfix).trans
    ((List.dropWhile_suffix _).isInfix)

theorem dropWhile_head_false (p : α → Bool) (l : List α) :
    l.dropWhile p = [] ∨ ∃ c t, l.dropWhile p = c :: t ∧ p c = false := by
  induction l with
  | nil => exact Or.inl rfl
  | cons c rest ih =>
    by_cases hc : p c
    · rw [List.dropWhile_cons, if_pos hc]
      exact ih
    · rw [List.dropWhile_cons, if_neg hc]
      exact Or.inr ⟨c, rest, rfl, by simpa using hc⟩

theorem dropWhile_dropWhile (p : α → Bool) (l : List α) :
    (l.dropWhile p).dropWhile p = l.dropWhile p := by
  rcases dropWhile_head_false p l with h | ⟨c, t, h, hc⟩
  · rw [h]; rfl
  · rw [h, List.dropWhile_cons, if_neg (by simp [hc])]

theorem rdropWhile_rdropWhile (p : α → Bool) (l : List α) :
    (l.rdropWhile p).rdropWhile p = l.rdropWhile p := by
  unfold List.rdropWhile
  rw [List.reverse_reverse, dropWhile_dropWhile]

theorem pyStrip_idem (l : Txt) : pyStrip (pyStrip l) = pyStrip l := by
  rw [pyStrip_eq_rdropWhile, pyStrip_eq_rdropWhile]
  have hdrop : ((l.dropWhile pyIsSpace).rdropWhile pyIsSpace).dropWhile pyIsSpace =
      (l.dropWhile pyIsSpace).rdropWhile pyIsSpace := by
    rcases dropWhile_head_false pyIsSpace l with h | ⟨c, t, h, hc⟩
    · rw [h]
      rfl
    · rw [h]
      cases hpre : (c :: t).rdropWhile pyIsSpace with
      | nil => rfl
      | cons d t2 =>
        have hp := List.rdropWhile_prefix pyIsSpace (c :: t)
        rw [hpre] at hp
        obtain ⟨s, hs⟩ := hp
        have hd : d = c := by
          have := congrArg List.head? hs
          simpa using this
        rw [List.dropWhile_cons, if_neg (by rw [hd]; simp [hc])]
  rw [hdrop, rdropWhile_rdropWhile]

/-- Corollaries phrased via `collapseSeps`, keeping later unifications
syntactic. -/
theorem collapseSeps_mem (l : Txt) (c : Char) (hc : c ∈ collapseSeps l) :
    c = ' ' ∨ (c ∈ l ∧ isSep c = false) :=
  collapseAux_mem false l c hc

theorem collapseSeps_noSepRun (l : Txt) : NoSepRun (collapseSeps l) :=
  (collapseAux_noSepRun l).1

theorem collapseSeps_id_of_tame (l : Txt)
    (h1 : ∀ c ∈ l, isSep c = true → c = ' ') (h2 : NoSepRun l) :
    collapseSeps l = l :=
  (collapse_id_of_tame l h1 h2).1

theorem noSepRun_mono (l l' : Txt) (h : NoSepRun l) (hsub : l' <:+: l) :
    NoSepRun l' :=
  List.Chain'.infix h hsub

/-! ## Noise removal as the identity, and normalize on its own output -/

theorem removeAllAux_id (p0 : Char) (ps : Txt) : ∀ l : Txt,
    containsSub (p0 :: ps) l = false → removeAllAux p0 ps l 0 = l := by
  intro l
  induction l with
  | nil => intro _; rfl
  | cons c rest ih =>
    intro h
    unfold containsSub at h
    rw [Bool.or_eq_false_iff] at h
    unfold removeAllAux
    rw [if_neg (by simp [h.1]), ih h.2]

theorem pyRemove_id (pat l : Txt) (h : containsSub pat l = false) :
    pyRemove pat l = l := by
  cases pat with
  | nil =>
    exfalso
    cases l with
    | nil => exact absurd h (by simp [containsSub])
    | cons c rest => exact absurd h (by simp [containsSub, List.isPrefixOf])
  | cons p0 ps => exact removeAllAux_id p0 ps l h

theorem foldl_pyRemove_id : ∀ (ws : List Txt) (l : Txt),
    (∀ w ∈ ws, containsSub w l = false) →
    ws.foldl (fun t w => pyRemove w t) l = l := by
  intro ws
  induction ws with
  | nil => intro l _; rfl
  | cons w ws ih =>
    intro l h
    rw [List.foldl_cons, pyRemove_id w l (h w (List.mem_cons_self _ _))]
    exact ih l fun w' hw' => h w' (List.mem_cons_of_mem _ hw')



set_option maxHeartbeats 1000000 in
/-- C2 amended: `normalize` is idempotent on every text in which no noise word
occurs after NFKC folding and separator collapsing.  (In general it is not
idempotent: removing a noise word can create adjacent spaces, or a new noise
occurrence, that only a second pass cleans up — see the counterexample.) -/
theorem C2_normalize_conditional_idem (x : Txt)
    (h : ∀ w ∈ NOISE_WORDS, containsSub w (collapseSeps (nfkc x)) = false) :
    normalize (normalize x) = normalize x := by
  have hz : normalize x = pyStrip (collapseSeps (nfkc x)) := by
    rw [normalize_def, foldl_pyRemove_id NOISE_WORDS _ h]
  have hyz : normalize x <:+: collapseSeps (nfkc x) := by
    rw [hz]; exact infix_pyStrip _
  have hmemz : ∀ c ∈ normalize x, c ∈ collapseSeps (nfkc x) :=
    fun c hc => (hyz.sublist.subset) hc
  -- the characters of `normalize x` are fixed by the NFKC model
  have hnfkc : nfkc (normalize x) = normalize x := by
    apply map_id_of_fixed
    intro c hc
    rcases collapseSeps_mem (nfkc x) c (hmemz c hc) with hsp | ⟨hmem, _⟩
    · rw [hsp]; decide
    · rcases List.mem_map.mp hmem with ⟨d, _, hd⟩
      rw [← hd]
      exact nfkcChar_idem d
  -- `normalize x` is fixed by the separator collapse
  have htame : ∀ c ∈ normalize x, isSep c = true → c = ' ' := by
    intro c hc hsep
    rcases collapseSeps_mem (nfkc x) c (hmemz c hc) with hsp | ⟨_, hns⟩
    · exact hsp
    · rw [hsep] at hns; exact absurd hns (by simp)
  have hrun : NoSepRun (normalize x) :=
    noSepRun_mono _ _ (collapseSeps_noSepRun (nfkc x)) hyz
  have hcollapse : collapseSeps (normalize x) = normalize x :=
    collapseSeps_id_of_tame (normalize x) htame hrun
  -- no noise word occurs in `normalize x`
  have hnoise : ∀ w ∈ NOISE_WORDS, containsSub w (normalize x) = false :=
    fun w hw => containsSub_false_of_infix w _ _ hyz (h w hw)
  -- assemble
  conv_lhs => rw [normalize_def]
  rw [hnfkc, hcollapse, foldl_pyRemove_id NOISE_WORDS _ hnoise, hz, pyStrip_idem]


/-- C2 amended witness: a bracketed, hyphenated name with no noise word. -/
theorem C2_idem_witness :
    (∀ w ∈ NOISE_WORDS, containsSub w (collapseSeps (nfkc "【テスト】 カード-A".data)) = false) ∧
    normalize (normalize "【テスト】 カード-A".data) = normalize "【テスト】 カード-A".data :=
  ⟨by decide, C2_normalize_conditional_idem "【テスト】 カード-A".data (by decide)⟩

/-! ## Score invariance under price recording, and key uniqueness -/

theorem candScore_congr (name : Txt) (p q : MasterProduct)
    (hk : q.keywords = p.keywords) (hn : q.name = p.name) :
    candScore name q = candScore name p := by
  unfold candScore keyword_match needs_disambiguation product_is_dx
  rw [hk, hn]

theorem candScore_recordPrice (name shop : Txt) (price : Int) (p : MasterProduct) :
    candScore name (recordPrice shop price p) = candScore name p :=
  candScore_congr name p _ (recordPrice_keywords shop price p) (recordPrice_name shop price p)

theorem bestAux_updateAt_record (name shop : Txt) (price : Int) :
    ∀ (l : List MasterProduct) (i n : Nat) (acc : Option (Nat × ℚ)),
      bestAux name n acc (updateAt i (recordPrice shop price) l) = bestAux name n acc l := by
  intro l
  induction l with
  | nil => intro i n acc; cases i <;> rfl
  | cons p ps ih =>
    intro i n acc
    cases i with
    | zero =>
      show bestAux name n acc (recordPrice shop price p :: ps) = _
      simp only [bestAux, candScore_recordPrice]
    | succ m =>
      show bestAux name n acc (p :: updateAt m (recordPrice shop price) ps) = _
      simp only [bestAux]
      exact ih m _ _

theorem bestMatch_updateAt_record (name shop : Txt) (price : Int)
    (l : List MasterProduct) (i : Nat) :
    bestMatch name (updateAt i (recordPrice shop price) l) = bestMatch name l :=
  bestAux_updateAt_record name shop price l i 0 none

theorem recordPrice_nodup (shop : Txt) (price : Int) (p : MasterProduct)
    (h : (p.prices.map Prod.fst).Nodup) :
    ((recordPrice shop price p).prices.map Prod.fst).Nodup := by
  unfold recordPrice
  split
  · exact h
  · next hsome =>
    have hnone : List.lookup shop p.prices = none := by
      cases hl : List.lookup shop p.prices with
      | none => rfl
      | some v => rw [hl] at hsome; simp at hsome
    have hnotin : shop ∉ p.prices.map Prod.fst := lookup_none_keys shop p.prices hnone
    simp only [List.map_append, List.map_cons, List.map_nil]
    rw [List.nodup_append]
    refine ⟨h, by simp, ?_⟩
    intro a ha hb
    simp only [List.mem_cons, List.not_mem_nil, or_false] at hb
    rw [hb] at ha
    exact hnotin ha

/-- Every entry's price map has pairwise-distinct shop keys. -/
def NodupKeys (l : List MasterProduct) : Prop :=
  ∀ k (hk : k < l.length), (((l.get ⟨k, hk⟩).prices.map Prod.fst)).Nodup

theorem updateAt_record_nodup (shop : Txt) (price : Int) (i : Nat)
    (l : List MasterProduct) (h : NodupKeys l) :
    NodupKeys (updateAt i (recordPrice shop price) l) := by
  intro k hk
  have hk0 : k < l.length := by
    have := updateAt_length i (recordPrice shop price) l
    omega
  rw [updateAt_get i _ l k hk0 hk]
  by_cases hki : k = i
  · rw [if_pos hki]
    exact recordPrice_nodup shop price _ (h k hk0)
  · rw [if_neg hki]
    exact h k hk0

theorem step_nodup (shop : Txt) (products : List MasterProduct) (item : Txt × Int)
    (h : NodupKeys products) : NodupKeys (step shop products item) := by
  unfold step
  split
  · exact h
  · split
    · exact h
    · split
      · exact h
      · unfold applyBest
        split
        · split
          · exact updateAt_record_nodup shop item.2 _ products h
          · exact h
        · exact h

theorem match_products_nodup (items : List (Txt × Int)) (shop : Txt)
    (products : List MasterProduct) (h : NodupKeys products) :
    NodupKeys (match_products items shop products) := by
  induction items generalizing products with
  | nil => exact h
  | cons item rest ih =>
    rw [match_products_cons]
    exact ih _ (step_nodup shop products item h)

theorem recordPrice_of_lookup_some (shop : Txt) (price : Int) (p : MasterProduct)
    (v : Int) (h : List.lookup shop p.prices = some v) : recordPrice shop price p = p := by
  unfold recordPrice
  rw [if_pos (by simp [h])]

/-- C3: at-most-one price per shop per entry, first write wins.  Keys stay
duplicate-free, an existing price for any shop is never overwritten during a
run, and when two eligible observations both resolve to the same entry for the
same shop the recorded price is the first one. -/
theorem C3_first_write_wins :
    (∀ (items : List (Txt × Int)) (shop : Txt) (products : List MasterProduct),
      NodupKeys products → NodupKeys (match_products items shop products)) ∧
    (∀ (items : List (Txt × Int)) (shop : Txt) (products : List MasterProduct)
        (k : Nat) (hk : k < products.length)
        (hk' : k < (match_products items shop products).length) (key : Txt) (v : Int),
      List.lookup key (products.get ⟨k, hk⟩).prices = some v →
      List.lookup key ((match_products items shop products).get ⟨k, hk'⟩).prices = some v) ∧
    (∀ (n1 n2 : Txt) (p1 p2 : Int) (shop : Txt) (products : List MasterProduct)
        (i : Nat) (s1 s2 : ℚ),
      eligible n1 p1 → eligible n2 p2 →
      bestMatch n1 products = some (i, s1) → MATCH_THRESHOLD ≤ s1 →
      bestMatch n2 products = some (i, s2) → MATCH_THRESHOLD ≤ s2 →
      ∀ hi : i < products.length,
      List.lookup shop (products.get ⟨i, hi⟩).prices = none →
      ∃ q, (match_products [(n1, p1), (n2, p2)] shop products)[i]? = some q ∧
        List.lookup shop q.prices = some p1) := by
  refine ⟨match_products_nodup, ?_, ?_⟩
  · intro items shop products k hk hk' key v hv
    exact ((match_products_frame items shop products).2 k hk hk').2.2.2.2.2 key v hv
  · intro n1 n2 p1 p2 shop products i s1 s2 he1 he2 hb1 hs1 hb2 hs2 hi hnone
    have hstep1 : match_products [(n1, p1), (n2, p2)] shop products =
        step shop (updateAt i (recordPrice shop p1) products) (n2, p2) := by
      rw [match_products_cons, step_eligible shop products n1 p1 he1,
        applyBest_hit n1 p1 shop products i s1 hb1 hs1]
      rfl
    have hb2' : bestMatch n2 (updateAt i (recordPrice shop p1) products) = some (i, s2) := by
      rw [bestMatch_updateAt_record n2 shop p1 products i]
      exact hb2
    have hstep2 : step shop (updateAt i (recordPrice shop p1) products) (n2, p2) =
        updateAt i (recordPrice shop p2) (updateAt i (recordPrice shop p1) products) := by
      rw [step_eligible shop _ n2 p2 he2,
        applyBest_hit n2 p2 shop _ i s2 hb2' hs2]
    rw [hstep1, hstep2]
    have hlen1 : (updateAt i (recordPrice shop p1) products).length = products.length :=
      updateAt_length i _ products
    have hlen2 : (updateAt i (recordPrice shop p2)
        (updateAt i (recordPrice shop p1) products)).length = products.length := by
      rw [updateAt_length, hlen1]
    have hi2 : i < (updateAt i (recordPrice shop p2)
        (updateAt i (recordPrice shop p1) products)).length := by omega
    have hi1 : i < (updateAt i (recordPrice shop p1) products).length := by omega
    refine ⟨(updateAt i (recordPrice shop p2)
        (updateAt i (recordPrice shop p1) products)).get ⟨i, hi2⟩, ?_, ?_⟩
    · rw [List.getElem?_eq_getElem hi2]
      rfl
    · have hgets : (updateAt i (recordPrice shop p2)
          (updateAt i (recordPrice shop p1) products)).get ⟨i, hi2⟩ =
          recordPrice shop p2 (recordPrice shop p1 (products.get ⟨i, hi⟩)) := by
        rw [updateAt_get i _ _ i hi1 hi2, if_pos rfl, updateAt_get i _ _ i hi hi1, if_pos rfl]
      have hl1 : List.lookup shop (recordPrice shop p1 (products.get ⟨i, hi⟩)).prices =
          some p1 := recordPrice_lookup_fresh shop p1 _ hnone
      have hskip : recordPrice shop p2 (recordPrice shop p1 (products.get ⟨i, hi⟩)) =
          recordPrice shop p1 (products.get ⟨i, hi⟩) :=
        recordPrice_of_lookup_some shop p2 _ p1 hl1
      rw [hgets, hskip]
      exact hl1

/-- C3 witness: the same name matched twice for one shop keeps the first
price (1000, not 2000). -/
theorem C3_witness :
    eligible "abcd".data 1000 ∧ eligible "abcd".data 2000 ∧
    bestMatch "abcd".data [MP "sv" "abcd" 0 ["abcd"]] = some (0, 100) ∧
    MATCH_THRESHOLD ≤ (100 : ℚ) ∧
    List.lookup "shopA".data ((([MP "sv" "abcd" 0 ["abcd"]] :
      List MasterProduct).get ⟨0, by decide⟩).prices) = none ∧
    ∃ q, (match_products [("abcd".data, 1000), ("abcd".data, 2000)] "shopA".data
        [MP "sv" "abcd" 0 ["abcd"]])[0]? = some q ∧
      List.lookup "shopA".data q.prices = some 1000 := by
  refine ⟨by decide, by decide, by with_unfolding_all decide, by norm_num [MATCH_THRESHOLD],
    by decide, ?_⟩
  exact C3_first_write_wins.2.2 "abcd".data "abcd".data 1000 2000 "shopA".data
    [MP "sv" "abcd" 0 ["abcd"]] 0 100 100 (by decide) (by decide)
    (by with_unfolding_all decide) (by norm_num [MATCH_THRESHOLD])
    (by with_unfolding_all decide) (by norm_num [MATCH_THRESHOLD])
    (by decide) (by decide)

/-- C9: frame property of a run — catalog length and order, every identity
field, every price under a key other than the shop being processed, and every
pre-existing price value are all preserved; the only possible change is the
addition of the single key `shop` to some entries' price maps. -/
theorem C9_frame_properties (items : List (Txt × Int)) (shop : Txt)
    (products : List MasterProduct) :
    (match_products items shop products).length = products.length ∧
    ∀ k (hk : k < products.length) (hk' : k < (match_products items shop products).length),
      ((match_products items shop products).get ⟨k, hk'⟩).category =
        (products.get ⟨k, hk⟩).category ∧
      ((match_products items shop products).get ⟨k, hk'⟩).name =
        (products.get ⟨k, hk⟩).name ∧
      ((match_products items shop products).get ⟨k, hk'⟩).retail_price =
        (products.get ⟨k, hk⟩).retail_price ∧
      ((match_products items shop products).get ⟨k, hk'⟩).keywords =
        (products.get ⟨k, hk⟩).keywords ∧
      (∀ key, key ≠ shop →
        List.lookup key ((match_products items shop products).get ⟨k, hk'⟩).prices =
          List.lookup key (products.get ⟨k, hk⟩).prices) ∧
      (∀ key v, List.lookup key (products.get ⟨k, hk⟩).prices = some v →
        List.lookup key ((match_products items shop products).get ⟨k, hk'⟩).prices = some v) :=
  match_products_frame items shop products

/-- C9 witness: a one-item run against a one-entry catalog that already holds
a price for another shop. -/
theorem C9_witness :
    (match_products [("abcd".data, 1000)] "shopA".data
      [⟨"sv".data, "abcd".data, 0, ["abcd".data], [("shopB".data, 777)]⟩]).length =
      ([⟨"sv".data, "abcd".data, 0, ["abcd".data], [("shopB".data, 777)]⟩] :
        List MasterProduct).length ∧
    "shopB".data ≠ "shopA".data ∧
    ((match_products [("abcd".data, 1000)] "shopA".data
        [⟨"sv".data, "abcd".data, 0, ["abcd".data], [("shopB".data, 777)]⟩]).get
      ⟨0, by with_unfolding_all decide⟩).name =
      (([⟨"sv".data, "abcd".data, 0, ["abcd".data], [("shopB".data, 777)]⟩] :
        List MasterProduct).get ⟨0, by decide⟩).name ∧
    List.lookup "shopB".data
      ((match_products [("abcd".data, 1000)] "shopA".data
          [⟨"sv".data, "abcd".data, 0, ["abcd".data], [("shopB".data, 777)]⟩]).get
        ⟨0, by with_unfolding_all decide⟩).prices =
      List.lookup "shopB".data
        (([⟨"sv".data, "abcd".data, 0, ["abcd".data], [("shopB".data, 777)]⟩] :
          List MasterProduct).get ⟨0, by decide⟩).prices := by
  refine ⟨(C9_frame_properties _ _ _).1, by decide, ?_, ?_⟩
  · exact ((C9_frame_properties [("abcd".data, 1000)] "shopA".data
      [⟨"sv".data, "abcd".data, 0, ["abcd".data], [("shopB".data, 777)]⟩]).2 0
      (by decide) (by with_unfolding_all decide)).2.1
  · exact ((C9_frame_properties [("abcd".data, 1000)] "shopA".data
      [⟨"sv".data, "abcd".data, 0, ["abcd".data], [("shopB".data, 777)]⟩]).2 0
      (by decide) (by with_unfolding_all decide)).2.2.2.2.1 "shopB".data (by decide)

set_option maxHeartbeats 4000000 in
set_option maxRecDepth 40000 in
/-- C1 counterexample: the eligible name `"インフェルノ メガブレイブ BOX"`
contains a normalized keyword of catalog entry 1 (`メガブレイブ`), which needs
no disambiguation, yet the matcher selects entry 0 (the first entry whose
keyword also occurs) and entry 1 receives no price — so the claim's "selects E
as the winning entry" fails for E = entry 1. -/
theorem C1_counterexample :
    keyword_match "インフェルノ メガブレイブ BOX".data
      (MASTER_PRODUCTS.get ⟨1, by decide⟩) = true ∧
    needs_disambiguation (MASTER_PRODUCTS.get ⟨1, by decide⟩) = false ∧
    eligible "インフェルノ メガブレイブ BOX".data 5000 ∧
    bestMatch "インフェルノ メガブレイブ BOX".data MASTER_PRODUCTS = some (0, 100) ∧
    (∃ q, (match_products [("インフェルノ メガブレイブ BOX".data, 5000)]
        "shopA".data MASTER_PRODUCTS)[1]? = some q ∧
      List.lookup "shopA".data q.prices = none) := by
  refine ⟨by with_unfolding_all decide, by decide, by decide, ?_, ?_⟩
  · with_unfolding_all decide
  · with_unfolding_all decide

/-- C1 amended: keyword fast path, restricted to the first keyword-matching
entry.  If the eligible name contains a normalized keyword of the entry at
index `i`, the entry passes the variant check whenever it needs one, and no
earlier entry attains score 100, then the matcher scores it 100 and selects
it, and `match_products` records the price for it (when the shop has no
recorded price there yet). -/
theorem C1_keyword_fast_path (name : Txt) (price : Int) (shop : Txt)
    (products : List MasterProduct) (i : Nat) (hi : i < products.length)
    (helig : eligible name price)
    (hkw : keyword_match name (products.get ⟨i, hi⟩) = true)
    (hvar : needs_disambiguation (products.get ⟨i, hi⟩) = true →
      product_is_dx (products.get ⟨i, hi⟩) = is_dx_item name)
    (hfirst : ∀ j, j < i → scoreLt100 (candScoreAt name products j)) :
    bestMatch name products = some (i, 100) ∧
    (List.lookup shop (products.get ⟨i, hi⟩).prices = none →
      ∃ q, (match_products [(name, price)] shop products)[i]? = some q ∧
        List.lookup shop q.prices = some price) := by
  have hcand : candScore name (products.get ⟨i, hi⟩) = some 100 := by
    unfold candScore
    rw [if_pos hkw]
    rw [if_neg (by
      intro hcontra
      obtain ⟨h1, h2⟩ := Bool.and_eq_true _ _ |>.mp hcontra
      rw [hvar h1] at h2
      simp at h2)]
  have hbest : bestMatch name products = some (i, 100) :=
    bestMatch_of_100 name products i hi hcand hfirst
  refine ⟨hbest, ?_⟩
  intro hnone
  have hmp : match_products [(name, price)] shop products =
      updateAt i (recordPrice shop price) products := by
    rw [match_products_cons, step_eligible shop products name price helig,
      match_products_nil]
    exact applyBest_hit name price shop products i 100 hbest
      (by norm_num [MATCH_THRESHOLD])
  have hi' : i < (updateAt i (recordPrice shop price) products).length := by
    rw [updateAt_length]; exact hi
  refine ⟨(updateAt i (recordPrice shop price) products).get ⟨i, hi'⟩, ?_, ?_⟩
  · rw [hmp, List.getElem?_eq_getElem hi']
    rfl
  · rw [updateAt_get i _ _ i hi hi', if_pos rfl]
    exact recordPrice_lookup_fresh shop price _ hnone

/-- C1 witness: `"メガブレイブ BOX"` is recorded on entry 1 with score 100. -/
theorem C1_witness :
    eligible "メガブレイブ BOX".data 5000 ∧
    keyword_match "メガブレイブ BOX".data (MASTER_PRODUCTS.get ⟨1, by decide⟩) = true ∧
    (∀ j, j < 1 → scoreLt100 (candScoreAt "メガブレイブ BOX".data MASTER_PRODUCTS j)) ∧
    bestMatch "メガブレイブ BOX".data MASTER_PRODUCTS = some (1, 100) ∧
    (∃ q, (match_products [("メガブレイブ BOX".data, 5000)] "shopA".data
        MASTER_PRODUCTS)[1]? = some q ∧
      List.lookup "shopA".data q.prices = some 5000) := by
  have h := C1_keyword_fast_path "メガブレイブ BOX".data 5000 "shopA".data
    MASTER_PRODUCTS 1 (by decide) (by decide) (by with_unfolding_all decide)
    (fun hd => absurd hd (by with_unfolding_all decide))
    (by with_unfolding_all decide)
  exact ⟨by decide, by with_unfolding_all decide, by with_unfolding_all decide,
    h.1, h.2 (by decide)⟩

/-! ## Token lemmas: splitting, sorting, joining -/

theorem infix_append_left {α : Type _} (l l₁ l₂ : List α) (h : l₁ <:+: l₂) :
    l₁ <:+: l ++ l₂ := by
  obtain ⟨s, t, hst⟩ := h
  exact ⟨l ++ s, t, by rw [← hst]; simp [List.append_assoc]⟩

theorem splitWsAux_sound : ∀ (l acc : Txt), (∀ c ∈ acc, pyIsSpace c = false) →
    ∀ t ∈ splitWsAux l acc,
      t ≠ [] ∧ (∀ c ∈ t, pyIsSpace c = false) ∧ t <:+: acc.reverse ++ l := by
  intro l
  induction l with
  | nil =>
    intro acc hacc t ht
    unfold splitWsAux at ht
    by_cases he : acc.isEmpty
    · rw [if_pos he] at ht
      exact absurd ht (by simp)
    · rw [if_neg he] at ht
      simp only [List.mem_singleton] at ht
      refine ⟨?_, ?_, ?_⟩
      · rw [ht]
        simp only [ne_eq, List.reverse_eq_nil_iff]
        intro hnil
        rw [hnil] at he
        exact he rfl
      · intro c hc
        rw [ht] at hc
        exact hacc c (List.mem_reverse.mp hc)
      · rw [ht, List.append_nil]
  | cons c rest ih =>
    intro acc hacc t ht
    unfold splitWsAux at ht
    by_cases hsp : pyIsSpace c
    · rw [if_pos hsp] at ht
      have hsub : t <:+: rest → t <:+: acc.reverse ++ c :: rest := by
        intro hu
        exact infix_append_left _ _ _ (List.infix_cons hu)
      by_cases he : acc.isEmpty
      · rw [if_pos he] at ht
        obtain ⟨h1, h2, h3⟩ := ih [] (by simp) t ht
        exact ⟨h1, h2, hsub (by simpa using h3)⟩
      · rw [if_neg he] at ht
        rcases List.mem_cons.mp ht with hrev | hrec
        · refine ⟨?_, ?_, ?_⟩
          · rw [hrev]
            simp only [ne_eq, List.reverse_eq_nil_iff]
            intro hnil
            rw [hnil] at he
            exact he rfl
          · intro d hd
            rw [hrev] at hd
            exact hacc d (List.mem_reverse.mp hd)
          · rw [hrev]
            exact ((List.prefix_append acc.reverse (c :: rest))).isInfix
        · obtain ⟨h1, h2, h3⟩ := ih [] (by simp) t hrec
          exact ⟨h1, h2, hsub (by simpa using h3)⟩
    · rw [if_neg hsp] at ht
      obtain ⟨h1, h2, h3⟩ := ih (c :: acc)
        (by
          intro d hd
          rcases List.mem_cons.mp hd with hd | hd
          · rw [hd]; simpa using hsp
          · exact hacc d hd) t ht
      refine ⟨h1, h2, ?_⟩
      have : (c :: acc).reverse ++ rest = acc.reverse ++ c :: rest := by
        simp [List.append_assoc]
      rwa [this] at h3

theorem splitWs_sound (l : Txt) (t : Txt) (ht : t ∈ splitWs l) :
    t ≠ [] ∧ (∀ c ∈ t, pyIsSpace c = false) ∧ t <:+: l := by
  have := splitWsAux_sound l [] (by simp) t ht
  simpa using this

theorem splitWsAux_cons (c : Char) (rest acc : Txt) :
    splitWsAux (c :: rest) acc =
      if pyIsSpace c then
        (if acc.isEmpty then splitWsAux rest [] else acc.reverse :: splitWsAux rest [])
      else splitWsAux rest (c :: acc) := rfl

theorem splitWsAux_word : ∀ (w acc rest : Txt), (∀ c ∈ w, pyIsSpace c = false) →
    splitWsAux (w ++ rest) acc = splitWsAux rest (w.reverse ++ acc) := by
  intro w
  induction w with
  | nil => intro acc rest _; simp
  | cons c w' ih =>
    intro acc rest hw
    have hc : pyIsSpace c = false := hw c (List.mem_cons_self _ _)
    rw [List.cons_append, splitWsAux_cons]
    rw [if_neg (by simp [hc])]
    rw [ih (c :: acc) rest (fun d hd => hw d (List.mem_cons_of_mem _ hd))]
    have harg : w'.reverse ++ c :: acc = (c :: w').reverse ++ acc := by simp
    rw [harg]

theorem splitWs_joinSp : ∀ ts : List Txt,
    (∀ t ∈ ts, t ≠ [] ∧ ∀ c ∈ t, pyIsSpace c = false) →
    splitWs (joinSp ts) = ts := by
  intro ts
  induction ts with
  | nil => intro _; rfl
  | cons t ts' ih =>
    intro h
    obtain ⟨hne, hsp⟩ := h t (List.mem_cons_self _ _)
    cases ts' with
    | nil =>
      show splitWs (joinSp [t]) = [t]
      have hj : joinSp [t] = t := rfl
      rw [hj]
      unfold splitWs
      rw [show t = t ++ [] from (List.append_nil t).symm, splitWsAux_word t [] [] hsp]
      unfold splitWsAux
      rw [if_neg (by
        simp only [List.append_nil, List.isEmpty_iff, List.reverse_eq_nil_iff]
        exact hne)]
      simp
    | cons t2 ts'' =>
      have hj : joinSp (t :: t2 :: ts'') = t ++ ' ' :: joinSp (t2 :: ts'') := rfl
      unfold splitWs
      rw [hj, splitWsAux_word t [] (' ' :: joinSp (t2 :: ts'')) hsp]
      unfold splitWsAux
      rw [if_pos (by decide)]
      rw [if_neg (by
        simp only [List.append_nil, List.isEmpty_iff, List.reverse_eq_nil_iff]
        exact hne)]
      simp only [List.append_nil, List.reverse_reverse]
      rw [show splitWsAux (joinSp (t2 :: ts'')) [] = splitWs (joinSp (t2 :: ts'')) from rfl]
      rw [ih (fun u hu => h u (List.mem_cons_of_mem _ hu))]

theorem mem_insertSorted (x y : Txt) : ∀ l : List Txt,
    (y ∈ insertSorted x l ↔ y = x ∨ y ∈ l) := by
  intro l
  induction l with
  | nil => simp [insertSorted]
  | cons z zs ih =>
    unfold insertSorted
    by_cases hle : lexLe x z
    · rw [if_pos hle]
      simp [List.mem_cons]
    · rw [if_neg hle]
      simp only [List.mem_cons, ih]
      tauto

theorem mem_sortStrs (y : Txt) : ∀ l : List Txt, (y ∈ sortStrs l ↔ y ∈ l) := by
  intro l
  induction l with
  | nil => simp [sortStrs]
  | cons z zs ih =>
    unfold sortStrs
    rw [mem_insertSorted, ih]
    simp [List.mem_cons]

theorem splitWs_tokenSortJoin (t : Txt) :
    splitWs (tokenSortJoin t) = sortStrs (splitWs t) := by
  unfold tokenSortJoin
  apply splitWs_joinSp
  intro u hu
  have := (mem_sortStrs u (splitWs t)).mp hu
  obtain ⟨h1, h2, _⟩ := splitWs_sound t u this
  exact ⟨h1, h2⟩

theorem token_mem_of_ratio100 (a b t : Txt) (h : token_sort_ratio a b = 100)
    (ht : t ∈ splitWs b) : t ∈ splitWs a := by
  have hj : tokenSortJoin a = tokenSortJoin b := token_sort_ratio_eq_100_imp a b h
  have hs : sortStrs (splitWs a) = sortStrs (splitWs b) := by
    rw [← splitWs_tokenSortJoin, ← splitWs_tokenSortJoin, hj]
  exact (mem_sortStrs t (splitWs a)).mp (hs ▸ (mem_sortStrs t (splitWs b)).mpr ht)

theorem contains_of_token (l t : Txt) (ht : t ∈ splitWs l) :
    containsSub t l = true :=
  (containsSub_iff_sub t l).mpr (splitWs_sound l t ht).2.2

theorem is_dx_of_dx_token (name t : Txt) (ht : t ∈ splitWs (normalize name))
    (hdx : containsSub "dx".data (t.map Char.toLower) = true) :
    is_dx_item name = true := by
  have hinf : t <:+: normalize name := (splitWs_sound _ t ht).2.2
  have hinf2 : t.map Char.toLower <:+: (normalize name).map Char.toLower :=
    List.IsInfix.map _ hinf
  have hdx2 : containsSub "dx".data ((normalize name).map Char.toLower) = true :=
    (containsSub_iff_sub _ _).mpr (((containsSub_iff_sub _ _).mp hdx).trans hinf2)
  have hrw : is_dx_item name =
      (containsSub "dx".data ((normalize name).map Char.toLower) ||
        containsSub "DX".data name ||
        containsSub "拡張パックdx".data ((normalize name).map Char.toLower) ||
        containsSub "拡張パックDX".data name) := rfl
  rw [hrw, hdx2]
  simp

theorem keyword_match_of_kw (name kw : Txt) (p : MasterProduct) (hmem : kw ∈ p.keywords)
    (hne : (normalize kw).isEmpty = false)
    (hc : containsSub (normalize kw) (normalize name) = true) :
    keyword_match name p = true := by
  unfold keyword_match
  rw [List.any_eq_true]
  refine ⟨kw, hmem, ?_⟩
  show ((!(normalize kw).isEmpty) && containsSub (normalize kw) (normalize name)) = true
  rw [hne, hc]
  rfl

/-! ## C6: DX/base disambiguation over the real catalog -/

theorem bestMatch_win_100 (name : Txt) (products : List MasterProduct) (j : Nat) (s : ℚ)
    (k : Nat) (hk : k < products.length)
    (hwin : bestMatch name products = some (j, s))
    (hcand : candScore name (products.get ⟨k, hk⟩) = some 100) :
    s = 100 ∧ ∃ hj : j < products.length, candScore name (products.get ⟨j, hj⟩) = some 100 := by
  have hge : 100 ≤ s := by
    have h := bestAux_ge_elem name products 0 none k hk 100 hcand
    have heq : bestAux name 0 none products = bestMatch name products := rfl
    rw [heq, hwin] at h
    simpa [accScore] using h
  rcases bestAux_from name products 0 none j s hwin with hl | ⟨k', hk', hj, hcs⟩
  · exact absurd hl (by simp)
  · have hj' : j = k' := by omega
    subst hj'
    have hle : s ≤ 100 := candScore_le_100 name _ s hcs
    have hs : s = 100 := le_antisymm hle hge
    rw [hs] at hcs
    exact ⟨hs, hk', hcs⟩

theorem C6_no100_dx_black (name : Txt) (hnodx : is_dx_item name = false) :
    candScore name (MASTER_PRODUCTS.get ⟨7, by decide⟩) ≠ some 100 := by
  intro hc
  unfold candScore at hc
  by_cases hkw : keyword_match name (MASTER_PRODUCTS.get ⟨7, by decide⟩)
  · rw [if_pos hkw] at hc
    rw [if_pos (by rw [hnodx]; with_unfolding_all decide)] at hc
    exact absurd hc (by simp)
  · rw [if_neg hkw] at hc
    have hs := Option.some.inj hc
    have htok : "拡張パックDX".data ∈ splitWs (normalize name) :=
      token_mem_of_ratio100 _ _ _ hs (by with_unfolding_all decide)
    have := is_dx_of_dx_token name _ htok (by decide)
    rw [this] at hnodx
    exact absurd hnodx (by simp)

theorem C6_no100_dx_white (name : Txt) (hnodx : is_dx_item name = false) :
    candScore name (MASTER_PRODUCTS.get ⟨8, by decide⟩) ≠ some 100 := by
  intro hc
  unfold candScore at hc
  by_cases hkw : keyword_match name (MASTER_PRODUCTS.get ⟨8, by decide⟩)
  · rw [if_pos hkw] at hc
    rw [if_pos (by rw [hnodx]; with_unfolding_all decide)] at hc
    exact absurd hc (by simp)
  · rw [if_neg hkw] at hc
    have hs := Option.some.inj hc
    have htok : "拡張パックDX".data ∈ splitWs (normalize name) :=
      token_mem_of_ratio100 _ _ _ hs (by with_unfolding_all decide)
    have := is_dx_of_dx_token name _ htok (by decide)
    rw [this] at hnodx
    exact absurd hnodx (by simp)

theorem C6_no100_base_black (name : Txt) (hdx : is_dx_item name = true) :
    candScore name (MASTER_PRODUCTS.get ⟨10, by decide⟩) ≠ some 100 := by
  intro hc
  unfold candScore at hc
  by_cases hkw : keyword_match name (MASTER_PRODUCTS.get ⟨10, by decide⟩)
  · rw [if_pos hkw] at hc
    rw [if_pos (by rw [hdx]; with_unfolding_all decide)] at hc
    exact absurd hc (by simp)
  · rw [if_neg hkw] at hc
    have hs := Option.some.inj hc
    have htok : "ブラックボルト".data ∈ splitWs (normalize name) :=
      token_mem_of_ratio100 _ _ _ hs (by with_unfolding_all decide)
    have hcont : containsSub "ブラックボルト".data (normalize name) = true :=
      contains_of_token _ _ htok
    have hnorm : normalize "ブラックボルト".data = "ブラックボルト".data := by
      with_unfolding_all decide
    have : keyword_match name (MASTER_PRODUCTS.get ⟨10, by decide⟩) = true := by
      refine keyword_match_of_kw name "ブラックボルト".data _ (by decide) ?_ ?_
      · rw [hnorm]; decide
      · rw [hnorm]; exact hcont
    exact absurd this hkw

theorem C6_no100_base_white (name : Txt) (hdx : is_dx_item name = true) :
    candScore name (MASTER_PRODUCTS.get ⟨14, by decide⟩) ≠ some 100 := by
  intro hc
  unfold candScore at hc
  by_cases hkw : keyword_match name (MASTER_PRODUCTS.get ⟨14, by decide⟩)
  · rw [if_pos hkw] at hc
    rw [if_pos (by rw [hdx]; with_unfolding_all decide)] at hc
    exact absurd hc (by simp)
  · rw [if_neg hkw] at hc
    have hs := Option.some.inj hc
    have htok : "ホワイトフレア".data ∈ splitWs (normalize name) :=
      token_mem_of_ratio100 _ _ _ hs (by with_unfolding_all decide)
    have hcont : containsSub "ホワイトフレア".data (normalize name) = true :=
      contains_of_token _ _ htok
    have hnorm : normalize "ホワイトフレア".data = "ホワイトフレア".data := by
      with_unfolding_all decide
    have : keyword_match name (MASTER_PRODUCTS.get ⟨14, by decide⟩) = true := by
      refine keyword_match_of_kw name "ホワイトフレア".data _ (by decide) ?_ ?_
      · rw [hnorm]; decide
      · rw [hnorm]; exact hcont
    exact absurd this hkw

theorem C6_cand100_at (name : Txt) (i : Nat) (hi : i < MASTER_PRODUCTS.length)
    (kw : Txt) (hmem : kw ∈ (MASTER_PRODUCTS.get ⟨i, hi⟩).keywords)
    (hknorm : normalize kw = kw) (hkne : kw ≠ [])
    (hcont : containsSub kw (normalize name) = true)
    (hpass : (needs_disambiguation (MASTER_PRODUCTS.get ⟨i, hi⟩) &&
      (product_is_dx (MASTER_PRODUCTS.get ⟨i, hi⟩) != is_dx_item name)) = false) :
    candScore name (MASTER_PRODUCTS.get ⟨i, hi⟩) = some 100 := by
  have hkw : keyword_match name (MASTER_PRODUCTS.get ⟨i, hi⟩) = true := by
    refine keyword_match_of_kw name kw _ hmem ?_ ?_
    · rw [hknorm]; simpa using hkne
    · rw [hknorm]; exact hcont
  unfold candScore
  rw [if_pos hkw, if_neg (by rw [hpass]; simp)]

set_option maxHeartbeats 4000000 in
set_option maxRecDepth 40000 in
/-- C6 counterexample: `"151 ブラックボルト DX BOX"` is eligible, carries the
shared keyword `ブラックボルト` and a DX marker, yet it resolves to entry 5
(the `151` pack, whose keyword also matches), not to the DX entry — the
claim's "resolves to the DX catalog entry" fails. -/
theorem C6_counterexample :
    containsSub "ブラックボルト".data (normalize "151 ブラックボルト DX BOX".data) = true ∧
    is_dx_item "151 ブラックボルト DX BOX".data = true ∧
    eligible "151 ブラックボルト DX BOX".data 5000 ∧
    bestMatch "151 ブラックボルト DX BOX".data MASTER_PRODUCTS = some (5, 100) ∧
    product_is_dx (MASTER_PRODUCTS.get ⟨5, by decide⟩) = false ∧
    (5 : Nat) ≠ 7 := by
  refine ⟨by with_unfolding_all decide, by with_unfolding_all decide, by decide, ?_,
    by decide, by decide⟩
  with_unfolding_all decide

/-- C6 amended: over the real catalog, an observation whose normalized name
contains a shared disambiguation keyword never resolves to the
wrong-variant entry: with a DX marker the base entries (indices 10, 14) can
never win, and without one the DX entries (indices 7, 8) can never win; and
the matching-variant entry is selected with score 100 provided no earlier
catalog entry reaches score 100 (the keyword-collision proviso of the
matcher). -/
theorem C6_variant_disambiguation (name : Txt) :
    (is_dx_item name = true →
      containsSub "ブラックボルト".data (normalize name) = true →
      (∀ s, bestMatch name MASTER_PRODUCTS ≠ some (10, s) ∧
        bestMatch name MASTER_PRODUCTS ≠ some (14, s)) ∧
      ((∀ j, j < 7 → scoreLt100 (candScoreAt name MASTER_PRODUCTS j)) →
        bestMatch name MASTER_PRODUCTS = some (7, 100))) ∧
    (is_dx_item name = true →
      containsSub "ホワイトフレア".data (normalize name) = true →
      (∀ s, bestMatch name MASTER_PRODUCTS ≠ some (10, s) ∧
        bestMatch name MASTER_PRODUCTS ≠ some (14, s)) ∧
      ((∀ j, j < 8 → scoreLt100 (candScoreAt name MASTER_PRODUCTS j)) →
        bestMatch name MASTER_PRODUCTS = some (8, 100))) ∧
    (is_dx_item name = false →
      containsSub "ブラックボルト".data (normalize name) = true →
      (∀ s, bestMatch name MASTER_PRODUCTS ≠ some (7, s) ∧
        bestMatch name MASTER_PRODUCTS ≠ some (8, s)) ∧
      ((∀ j, j < 10 → scoreLt100 (candScoreAt name MASTER_PRODUCTS j)) →
        bestMatch name MASTER_PRODUCTS = some (10, 100))) ∧
    (is_dx_item name = false →
      containsSub "ホワイトフレア".data (normalize name) = true →
      (∀ s, bestMatch name MASTER_PRODUCTS ≠ some (7, s) ∧
        bestMatch name MASTER_PRODUCTS ≠ some (8, s)) ∧
      ((∀ j, j < 14 → scoreLt100 (candScoreAt name MASTER_PRODUCTS j)) →
        bestMatch name MASTER_PRODUCTS = some (14, 100))) := by
  refine ⟨?_, ?_, ?_, ?_⟩
  · intro hdx hcont
    have hcand : candScore name (MASTER_PRODUCTS.get ⟨7, by decide⟩) = some 100 :=
      C6_cand100_at name 7 (by decide) "ブラックボルト".data (by decide)
        (by with_unfolding_all decide) (by decide) hcont (by rw [hdx]; decide)
    refine ⟨?_, fun hb => bestMatch_of_100 name MASTER_PRODUCTS 7 (by decide) hcand hb⟩
    intro s
    constructor
    · intro hwin
      obtain ⟨_, hj, hcban⟩ := bestMatch_win_100 name MASTER_PRODUCTS 10 s 7 (by decide)
        hwin hcand
      exact C6_no100_base_black name hdx hcban
    · intro hwin
      obtain ⟨_, hj, hcban⟩ := bestMatch_win_100 name MASTER_PRODUCTS 14 s 7 (by decide)
        hwin hcand
      exact C6_no100_base_white name hdx hcban
  · intro hdx hcont
    have hcand : candScore name (MASTER_PRODUCTS.get ⟨8, by decide⟩) = some 100 :=
      C6_cand100_at name 8 (by decide) "ホワイトフレア".data (by decide)
        (by with_unfolding_all decide) (by decide) hcont (by rw [hdx]; decide)
    refine ⟨?_, fun hb => bestMatch_of_100 name MASTER_PRODUCTS 8 (by decide) hcand hb⟩
    intro s
    constructor
    · intro hwin
      obtain ⟨_, hj, hcban⟩ := bestMatch_win_100 name MASTER_PRODUCTS 10 s 8 (by decide)
        hwin hcand
      exact C6_no100_base_black name hdx hcban
    · intro hwin
      obtain ⟨_, hj, hcban⟩ := bestMatch_win_100 name MASTER_PRODUCTS 14 s 8 (by decide)
        hwin hcand
      exact C6_no100_base_white name hdx hcban
  · intro hnodx hcont
    have hcand : candScore name (MASTER_PRODUCTS.get ⟨10, by decide⟩) = some 100 :=
      C6_cand100_at name 10 (by decide) "ブラックボルト".data (by decide)
        (by with_unfolding_all decide) (by decide) hcont (by rw [hnodx]; decide)
    refine ⟨?_, fun hb => bestMatch_of_100 name MASTER_PRODUCTS 10 (by decide) hcand hb⟩
    intro s
    constructor
    · intro hwin
      obtain ⟨_, hj, hcban⟩ := bestMatch_win_100 name MASTER_PRODUCTS 7 s 10 (by decide)
        hwin hcand
      exact C6_no100_dx_black name hnodx hcban
    · intro hwin
      obtain ⟨_, hj, hcban⟩ := bestMatch_win_100 name MASTER_PRODUCTS 8 s 10 (by decide)
        hwin hcand
      exact C6_no100_dx_white name hnodx hcban
  · intro hnodx hcont
    have hcand : candScore name (MASTER_PRODUCTS.get ⟨14, by decide⟩) = some 100 :=
      C6_cand100_at name 14 (by decide) "ホワイトフレア".data (by decide)
        (by with_unfolding_all decide) (by decide) hcont (by rw [hnodx]; decide)
    refine ⟨?_, fun hb => bestMatch_of_100 name MASTER_PRODUCTS 14 (by decide) hcand hb⟩
    intro s
    constructor
    · intro hwin
      obtain ⟨_, hj, hcban⟩ := bestMatch_win_100 name MASTER_PRODUCTS 7 s 14 (by decide)
        hwin hcand
      exact C6_no100_dx_black name hnodx hcban
    · intro hwin
      obtain ⟨_, hj, hcban⟩ := bestMatch_win_100 name MASTER_PRODUCTS 8 s 14 (by decide)
        hwin hcand
      exact C6_no100_dx_white name hnodx hcban

set_option maxHeartbeats 8000000 in
set_option maxRecDepth 40000 in
/-- C6 witness: `"ブラックボルト DX BOX"` resolves to the DX entry (index 7)
and never the base entry; `"ブラックボルト BOX"` resolves to the base entry
(index 10) and never the DX entry. -/
theorem C6_witness :
    is_dx_item "ブラックボルト DX BOX".data = true ∧
    containsSub "ブラックボルト".data (normalize "ブラックボルト DX BOX".data) = true ∧
    (∀ j, j < 7 → scoreLt100 (candScoreAt "ブラックボルト DX BOX".data MASTER_PRODUCTS j)) ∧
    bestMatch "ブラックボルト DX BOX".data MASTER_PRODUCTS = some (7, 100) ∧
    (∀ s, bestMatch "ブラックボルト DX BOX".data MASTER_PRODUCTS ≠ some (10, s)) ∧
    is_dx_item "ブラックボルト BOX".data = false ∧
    containsSub "ブラックボルト".data (normalize "ブラックボルト BOX".data) = true ∧
    (∀ j, j < 10 → scoreLt100 (candScoreAt "ブラックボルト BOX".data MASTER_PRODUCTS j)) ∧
    bestMatch "ブラックボルト BOX".data MASTER_PRODUCTS = some (10, 100) ∧
    (∀ s, bestMatch "ブラックボルト BOX".data MASTER_PRODUCTS ≠ some (7, s)) := by
  have hdx1 : is_dx_item "ブラックボルト DX BOX".data = true := by
    with_unfolding_all decide
  have hc1 : containsSub "ブラックボルト".data
      (normalize "ブラックボルト DX BOX".data) = true := by
    with_unfolding_all decide
  have hb1 : ∀ j, j < 7 →
      scoreLt100 (candScoreAt "ブラックボルト DX BOX".data MASTER_PRODUCTS j) := by
    with_unfolding_all decide
  have h1 := (C6_variant_disambiguation "ブラックボルト DX BOX".data).1 hdx1 hc1
  have hdx2 : is_dx_item "ブラックボルト BOX".data = false := by
    with_unfolding_all decide
  have hc2 : containsSub "ブラックボルト".data
      (normalize "ブラックボルト BOX".data) = true := by
    with_unfolding_all decide
  have hb2 : ∀ j, j < 10 →
      scoreLt100 (candScoreAt "ブラックボルト BOX".data MASTER_PRODUCTS j) := by
    with_unfolding_all decide
  have h2 := (C6_variant_disambiguation "ブラックボルト BOX".data).2.2.1 hdx2 hc2
  exact ⟨hdx1, hc1, hb1, h1.2 hb1, fun s => (h1.1 s).1, hdx2, hc2, hb2, h2.2 hb2,
    fun s => (h2.1 s).1⟩

end Matcher
